import Mathlib

/-!
Verification of the `jwt` crate: shallow embedding of the claim-set model,
header, token codec and their serialization pipeline, with proofs of the
specification's testable properties.

JSON values are modelled by the inductive `Json` below; numbers are modelled
as unbounded integers (the crate stores numbers through serde_json; floating
point is outside the scope of this model).
-/

/-- JSON value, modelling `serde_json::Value`. Object member lists are raw
association lists; the `BTreeMap`-backed values produced by serde are exactly
the `Json.isNormal` ones (keys strictly sorted, recursively). -/
inductive Json where
  | null : Json
  | bool (b : Bool) : Json
  | num (n : Int) : Json
  | str (s : String) : Json
  | arr (elems : List Json) : Json
  | obj (mems : List (String × Json)) : Json

mutual

/-- Boolean structural equality on `Json`. -/
def Json.beq : Json → Json → Bool
  | .null, .null => true
  | .bool a, .bool b => a == b
  | .num a, .num b => a == b
  | .str a, .str b => a == b
  | .arr xs, .arr ys => Json.beqList xs ys
  | .obj ms, .obj ns => Json.beqMems ms ns
  | _, _ => false

/-- Boolean structural equality on JSON arrays. -/
def Json.beqList : List Json → List Json → Bool
  | [], [] => true
  | x :: xs, y :: ys => Json.beq x y && Json.beqList xs ys
  | _, _ => false

/-- Boolean structural equality on JSON object member lists. -/
def Json.beqMems : List (String × Json) → List (String × Json) → Bool
  | [], [] => true
  | (k, v) :: ms, (l, w) :: ns => k == l && Json.beq v w && Json.beqMems ms ns
  | _, _ => false

end

mutual

theorem Json.beq_iff : ∀ a b : Json, Json.beq a b = true ↔ a = b
  | .null, b => by cases b <;> simp [Json.beq]
  | .bool a, b => by cases b <;> simp [Json.beq]
  | .num a, b => by cases b <;> simp [Json.beq]
  | .str a, b => by cases b <;> simp [Json.beq]
  | .arr xs, b => by
      cases b <;> simp [Json.beq]
      exact Json.beqList_iff xs _
  | .obj ms, b => by
      cases b <;> simp [Json.beq]
      exact Json.beqMems_iff ms _

theorem Json.beqList_iff : ∀ xs ys : List Json, Json.beqList xs ys = true ↔ xs = ys
  | [], ys => by cases ys <;> simp [Json.beqList]
  | x :: xs, ys => by
      cases ys with
      | nil => simp [Json.beqList]
      | cons y ys =>
          simp [Json.beqList, Json.beq_iff x y, Json.beqList_iff xs ys]

theorem Json.beqMems_iff :
    ∀ ms ns : List (String × Json), Json.beqMems ms ns = true ↔ ms = ns
  | [], ns => by cases ns <;> simp [Json.beqMems]
  | (k, v) :: ms, ns => by
      cases ns with
      | nil => simp [Json.beqMems]
      | cons p ns =>
          cases p with
          | mk l w =>
              simp [Json.beqMems, Json.beq_iff v w, Json.beqMems_iff ms ns,
                Prod.ext_iff, and_assoc]

end

instance : DecidableEq Json := fun a b => decidable_of_iff _ (Json.beq_iff a b)

/-- Decimal digit character for a digit value below ten. -/
def decChar (d : Nat) : Char := Char.ofNat (48 + d)

/-- Fuel-bounded digit extraction, least significant digit first into the
accumulator; `natDecChars` supplies ample fuel. -/
def natDecCharsAux : Nat → Nat → List Char → List Char
  | 0, _, acc => acc
  | f + 1, n, acc =>
    if n = 0 then acc else natDecCharsAux f (n / 10) (decChar (n % 10) :: acc)

/-- Decimal digit characters of a natural number, most significant first. -/
def natDecChars (n : Nat) : List Char :=
  if n = 0 then [decChar 0] else natDecCharsAux n n []

/-- Decimal rendering of an integer, modelling Rust integer `Display`. -/
def intChars (i : Int) : List Char :=
  if i < 0 then '-' :: natDecChars i.natAbs else natDecChars i.toNat

/-- Lowercase hexadecimal digit character. -/
def hexChar (d : Nat) : Char :=
  if d < 10 then Char.ofNat (48 + d) else Char.ofNat (97 + (d - 10))

/-- JSON string escaping of one character, as performed by serde_json:
quote, backslash, and the control characters below 0x20 are escaped
(with the short forms for backspace, tab, newline, form feed, carriage
return); everything else is emitted verbatim. -/
def escChar (c : Char) : List Char :=
  if c = '"' then ['\\', '"']
  else if c = '\\' then ['\\', '\\']
  else if c = Char.ofNat 8 then ['\\', 'b']
  else if c = Char.ofNat 9 then ['\\', 't']
  else if c = Char.ofNat 10 then ['\\', 'n']
  else if c = Char.ofNat 12 then ['\\', 'f']
  else if c = Char.ofNat 13 then ['\\', 'r']
  else if c.toNat < 32 then
    ['\\', 'u', '0', '0', hexChar (c.toNat / 16), hexChar (c.toNat % 16)]
  else [c]

/-- JSON string escaping of a character list. -/
def escChars (l : List Char) : List Char := (l.map escChar).flatten

mutual

/-- Compact JSON serialization, modelling `serde_json::to_string`. -/
def serChars : Json → List Char
  | .num i => intChars i
  | .str s => '"' :: (escChars s.data ++ ['"'])
  | .null => ['n', 'u', 'l', 'l']
  | .bool false => ['f', 'a', 'l', 's', 'e']
  | .bool true => ['t', 'r', 'u', 'e']
  | .arr xs => '[' :: (serElems xs ++ [']'])
  | .obj ms => '\x7b' :: (serMems ms ++ ['\x7d'])

/-- Comma-separated serialization of array elements. -/
def serElems : List Json → List Char
  | [] => []
  | [x] => serChars x
  | x :: y :: xs => serChars x ++ ',' :: serElems (y :: xs)

/-- Comma-separated serialization of object members (keys escaped). -/
def serMems : List (String × Json) → List Char
  | [] => []
  | [(k, v)] => '"' :: (escChars k.data ++ '"' :: ':' :: serChars v)
  | (k, v) :: m :: ms =>
      ('"' :: (escChars k.data ++ '"' :: ':' :: serChars v)) ++
        ',' :: serMems (m :: ms)

end

/-- String form of the compact JSON serialization. -/
def Json.serialize (v : Json) : String := String.mk (serChars v)

/-- Induction principle for `Json` giving the inductive hypothesis for every
element of an array and every member value of an object. -/
def Json.inductionOn (P : Json → Prop)
    (hnull : P .null) (hbool : ∀ b, P (.bool b))
    (hnum : ∀ n, P (.num n)) (hstr : ∀ s, P (.str s))
    (harr : ∀ xs, (∀ x ∈ xs, P x) → P (.arr xs))
    (hobj : ∀ ms, (∀ p ∈ ms, P p.2) → P (.obj ms)) : ∀ v, P v
  | .null => hnull
  | .bool b => hbool b
  | .num n => hnum n
  | .str s => hstr s
  | .arr xs => harr xs (fun x hx =>
      Json.inductionOn P hnull hbool hnum hstr harr hobj x)
  | .obj ms => hobj ms (fun p hp =>
      Json.inductionOn P hnull hbool hnum hstr harr hobj p.2)
termination_by v => sizeOf v
decreasing_by
  · have h1 := List.sizeOf_lt_of_mem hx
    simp only [Json.arr.sizeOf_spec]
    omega
  · have h1 := List.sizeOf_lt_of_mem hp
    have h2 : sizeOf p.2 < sizeOf p := by
      cases p with
      | mk a b => simp only [Prod.mk.sizeOf_spec]; omega
    simp only [Json.obj.sizeOf_spec]
    omega

/-- JSON insignificant whitespace: space, tab, line feed, carriage return. -/
def isJsonWs (c : Char) : Bool :=
  c = ' ' ∨ c = Char.ofNat 9 ∨ c = Char.ofNat 10 ∨ c = Char.ofNat 13

/-- Skip insignificant whitespace. -/
def skipWs : List Char → List Char
  | [] => []
  | c :: cs => if isJsonWs c then skipWs cs else c :: cs

/-- Value of a hexadecimal digit character. -/
def hexVal (c : Char) : Option Nat :=
  if 48 ≤ c.toNat ∧ c.toNat ≤ 57 then some (c.toNat - 48)
  else if 97 ≤ c.toNat ∧ c.toNat ≤ 102 then some (c.toNat - 97 + 10)
  else if 65 ≤ c.toNat ∧ c.toNat ≤ 70 then some (c.toNat - 65 + 10)
  else none

/-- Decoded character of a single-character JSON escape sequence. -/
def escDecode (c : Char) : Option Char :=
  if c = '"' then some '"'
  else if c = '\\' then some '\\'
  else if c = '/' then some '/'
  else if c = 'b' then some (Char.ofNat 8)
  else if c = 'f' then some (Char.ofNat 12)
  else if c = 'n' then some (Char.ofNat 10)
  else if c = 'r' then some (Char.ofNat 13)
  else if c = 't' then some (Char.ofNat 9)
  else none

/-- Parse the body of a JSON string (the opening quote already consumed),
accumulating decoded characters in reverse. Unescaped control characters,
invalid escapes and unpaired surrogate escapes are rejected, as by serde.
The fuel argument only bounds the recursion; callers supply at least the
input length plus one, which is ample since every step consumes input. -/
def parseStringBody : Nat → List Char → List Char → Option (String × List Char)
  | 0, _, _ => none
  | f + 1, acc, cs =>
    match cs with
    | [] => none
    | c :: cs1 =>
      if c = '"' then some (String.mk acc.reverse, cs1)
      else if c = '\\' then
        match cs1 with
        | [] => none
        | e :: cs2 =>
          match escDecode e with
          | some d => parseStringBody f (d :: acc) cs2
          | none =>
            if e = 'u' then
              match cs2 with
              | h1 :: h2 :: h3 :: h4 :: cs3 =>
                match hexVal h1, hexVal h2, hexVal h3, hexVal h4 with
                | some a, some b, some c2, some d2 =>
                  let n := ((a * 16 + b) * 16 + c2) * 16 + d2
                  if 0xD800 ≤ n ∧ n < 0xE000 then none
                  else parseStringBody f (Char.ofNat n :: acc) cs3
                | _, _, _, _ => none
              | _ => none
            else none
      else if c.toNat < 32 then none
      else parseStringBody f (c :: acc) cs1

/-- Decimal digit test. -/
def isDigitChar (c : Char) : Bool := 48 ≤ c.toNat ∧ c.toNat ≤ 57

/-- Numeric value of a run of decimal digits, most significant first. -/
def digitsVal (ds : List Char) : Nat :=
  ds.foldl (fun a c => 10 * a + (c.toNat - 48)) 0

/-- True when the characters after a digit run do not continue a number.
A following decimal point or exponent marker denotes a floating-point
number, which this model does not support. -/
def numTailOk : List Char → Bool
  | [] => true
  | c :: _ => ¬ (c = '.' ∨ c = 'e' ∨ c = 'E')

/-- Parse an unsigned decimal integer: at least one digit, no leading zero
in a multi-digit run, not continued by a fraction or exponent. -/
def parseNatNum (cs : List Char) : Option (Nat × List Char) :=
  match cs.takeWhile isDigitChar, cs.dropWhile isDigitChar with
  | [], _ => none
  | [d], rest => if numTailOk rest then some (digitsVal [d], rest) else none
  | d :: ds, rest =>
    if d = decChar 0 then none
    else if numTailOk rest then some (digitsVal (d :: ds), rest) else none

/-- Parse a JSON number (integers only in this model). -/
def parseNumber : List Char → Option (Int × List Char)
  | [] => none
  | c :: cs =>
    if c = '-' then (parseNatNum cs).map (fun p => (-(p.1 : Int), p.2))
    else (parseNatNum (c :: cs)).map (fun p => ((p.1 : Int), p.2))

/-- Drop an expected literal prefix. -/
def dropPrefix : List Char → List Char → Option (List Char)
  | [], cs => some cs
  | p :: ps, c :: cs => if c = p then dropPrefix ps cs else none
  | _ :: _, [] => none

mutual

/-- Parse one JSON value, fuel-bounded. `none` means a parse error or
insufficient fuel; `jsonParse` supplies fuel ample for its input. -/
def parseValue : Nat → List Char → Option (Json × List Char)
  | 0, _ => none
  | f + 1, cs =>
    match skipWs cs with
    | [] => none
    | c :: cs2 =>
      if c = 'n' then (dropPrefix ['u', 'l', 'l'] cs2).map (fun r => (.null, r))
      else if c = 't' then
        (dropPrefix ['r', 'u', 'e'] cs2).map (fun r => (.bool true, r))
      else if c = 'f' then
        (dropPrefix ['a', 'l', 's', 'e'] cs2).map (fun r => (.bool false, r))
      else if c = '"' then
        (parseStringBody (cs2.length + 1) [] cs2).map (fun p => (.str p.1, p.2))
      else if c = '[' then
        match skipWs cs2 with
        | ']' :: cs3 => some (.arr [], cs3)
        | cs3 => (parseElems f cs3).map (fun p => (.arr p.1, p.2))
      else if c = '\x7b' then
        match skipWs cs2 with
        | '\x7d' :: cs3 => some (.obj [], cs3)
        | cs3 => (parseMems f cs3).map (fun p => (.obj p.1, p.2))
      else (parseNumber (c :: cs2)).map (fun p => (.num p.1, p.2))

/-- Parse the elements of a non-empty JSON array up to the closing bracket. -/
def parseElems : Nat → List Char → Option (List Json × List Char)
  | 0, _ => none
  | f + 1, cs =>
    match parseValue f cs with
    | none => none
    | some (v, rest) =>
      match skipWs rest with
      | ',' :: rest2 =>
        match parseElems f rest2 with
        | some (vs, rest3) => some (v :: vs, rest3)
        | none => none
      | ']' :: rest2 => some ([v], rest2)
      | _ => none

/-- Parse the members of a non-empty JSON object up to the closing brace. -/
def parseMems : Nat → List Char → Option (List (String × Json) × List Char)
  | 0, _ => none
  | f + 1, cs =>
    match skipWs cs with
    | '"' :: cs2 =>
      match parseStringBody (cs2.length + 1) [] cs2 with
      | none => none
      | some (k, cs3) =>
        match skipWs cs3 with
        | ':' :: cs4 =>
          match parseValue f cs4 with
          | none => none
          | some (v, cs5) =>
            match skipWs cs5 with
            | ',' :: cs6 =>
              match parseMems f cs6 with
              | some (ms, r) => some ((k, v) :: ms, r)
              | none => none
            | '\x7d' :: cs6 => some ([(k, v)], cs6)
            | _ => none
        | _ => none
    | _ => none

end

/-- Parse a complete JSON text, modelling `serde_json::from_str`: one value,
optionally surrounded by whitespace, consuming the entire input. -/
def jsonParse (s : String) : Option Json :=
  match parseValue (2 * s.length + 2) s.data with
  | some (v, rest) => if skipWs rest = [] then some v else none
  | none => none

/-- Insert a key/value pair into a key-sorted association list, replacing an
existing binding of the same key. Models `BTreeMap::insert`. -/
def insertSorted (k : String) (v : Json) :
    List (String × Json) → List (String × Json)
  | [] => [(k, v)]
  | (k2, v2) :: rest =>
    if k < k2 then (k, v) :: (k2, v2) :: rest
    else if k = k2 then (k, v) :: rest
    else (k2, v2) :: insertSorted k v rest

/-- Build a `BTreeMap`-like sorted association list from raw parsed members,
later bindings of a duplicated key replacing earlier ones, as serde does. -/
def normObj (ps : List (String × Json)) : List (String × Json) :=
  ps.foldl (fun acc p => insertSorted p.1 p.2 acc) []

mutual

/-- Normalize a raw parsed `Json` into the shape serde_json's `Value` keeps
in memory: every object becomes a key-sorted, duplicate-free map. -/
def Json.normalize : Json → Json
  | .null => .null
  | .bool b => .bool b
  | .num n => .num n
  | .str s => .str s
  | .arr xs => .arr (Json.normalizeList xs)
  | .obj ms => .obj (normObj (Json.normalizeMems ms))

/-- Normalize every element of an array. -/
def Json.normalizeList : List Json → List Json
  | [] => []
  | x :: xs => Json.normalize x :: Json.normalizeList xs

/-- Normalize every member value of an object. -/
def Json.normalizeMems : List (String × Json) → List (String × Json)
  | [] => []
  | (k, v) :: ms => (k, Json.normalize v) :: Json.normalizeMems ms

end

/-- Strict sortedness of a key list (the `BTreeMap` key invariant). -/
def strictSorted : List String → Bool
  | [] => true
  | [_] => true
  | a :: b :: rest => a < b && strictSorted (b :: rest)

mutual

/-- True when a `Json` value already has the in-memory shape of a
serde_json `Value`: all object member lists strictly sorted by key. -/
def Json.isNormal : Json → Bool
  | .null => true
  | .bool _ => true
  | .num _ => true
  | .str _ => true
  | .arr xs => Json.isNormalList xs
  | .obj ms => strictSorted (ms.map Prod.fst) && Json.isNormalMems ms

/-- Normality of every element of an array. -/
def Json.isNormalList : List Json → Bool
  | [] => true
  | x :: xs => Json.isNormal x && Json.isNormalList xs

/-- Normality of every member value of an object. -/
def Json.isNormalMems : List (String × Json) → Bool
  | [] => true
  | (_, v) :: ms => Json.isNormal v && Json.isNormalMems ms

end

/-! Standard base64 with padding, modelling the `base64` crate's `encode`
and `decode` with the default (standard, padded) configuration. Decoding
also accepts an unpadded final group, and does not check that trailing
bits are zero; no claim depends on those corners. -/

/-- Character of a 6-bit value in the standard base64 alphabet. -/
def b64Char (n : Nat) : Char :=
  if n < 26 then Char.ofNat (65 + n)
  else if n < 52 then Char.ofNat (97 + (n - 26))
  else if n < 62 then Char.ofNat (48 + (n - 52))
  else if n = 62 then '+'
  else '/'

/-- 6-bit value of a standard base64 alphabet character. -/
def b64Val (c : Char) : Option Nat :=
  if 65 ≤ c.toNat ∧ c.toNat ≤ 90 then some (c.toNat - 65)
  else if 97 ≤ c.toNat ∧ c.toNat ≤ 122 then some (c.toNat - 97 + 26)
  else if 48 ≤ c.toNat ∧ c.toNat ≤ 57 then some (c.toNat - 48 + 52)
  else if c = '+' then some 62
  else if c = '/' then some 63
  else none

/-- Base64 encoding of a byte list, standard alphabet, padded. -/
def base64EncodeList : List Nat → List Char
  | [] => []
  | [b1] => [b64Char (b1 / 4), b64Char (b1 % 4 * 16), '=', '=']
  | [b1, b2] =>
      [b64Char (b1 / 4), b64Char (b1 % 4 * 16 + b2 / 16),
       b64Char (b2 % 16 * 4), '=']
  | b1 :: b2 :: b3 :: rest =>
      b64Char (b1 / 4) :: b64Char (b1 % 4 * 16 + b2 / 16) ::
      b64Char (b2 % 16 * 4 + b3 / 64) :: b64Char (b3 % 64) ::
      base64EncodeList rest

/-- Base64 encoding of a byte list as a string. -/
def base64Encode (bytes : List Nat) : String := String.mk (base64EncodeList bytes)

/-- Base64 decoding of a character list. -/
def base64DecodeList : List Char → Option (List Nat)
  | [] => some []
  | [c1, c2] => do
      let a ← b64Val c1
      let b ← b64Val c2
      pure [a * 4 + b / 16]
  | [c1, c2, c3] => do
      let a ← b64Val c1
      let b ← b64Val c2
      let c ← b64Val c3
      pure [a * 4 + b / 16, b % 16 * 16 + c / 4]
  | [c1, c2, '=', '='] => do
      let a ← b64Val c1
      let b ← b64Val c2
      pure [a * 4 + b / 16]
  | [c1, c2, c3, '='] => do
      let a ← b64Val c1
      let b ← b64Val c2
      let c ← b64Val c3
      pure [a * 4 + b / 16, b % 16 * 16 + c / 4]
  | c1 :: c2 :: c3 :: c4 :: rest => do
      let a ← b64Val c1
      let b ← b64Val c2
      let c ← b64Val c3
      let d ← b64Val c4
      let tail ← base64DecodeList rest
      pure ((a * 4 + b / 16) :: (b % 16 * 16 + c / 4) :: (c % 4 * 64 + d) :: tail)
  | _ => none

/-- Base64 decoding of a string into bytes. -/
def base64Decode (s : String) : Option (List Nat) := base64DecodeList s.data

/-- UTF-8 encoding of a single character. -/
def utf8EncodeChar (c : Char) : List Nat :=
  let n := c.toNat
  if n < 0x80 then [n]
  else if n < 0x800 then [0xC0 + n / 64, 0x80 + n % 64]
  else if n < 0x10000 then
    [0xE0 + n / 4096, 0x80 + n / 64 % 64, 0x80 + n % 64]
  else
    [0xF0 + n / 262144, 0x80 + n / 4096 % 64, 0x80 + n / 64 % 64,
     0x80 + n % 64]

/-- UTF-8 bytes of a string, modelling Rust `String::into_bytes`. -/
def utf8Encode (s : String) : List Nat := (s.data.map utf8EncodeChar).flatten

/-- UTF-8 continuation byte test. -/
def isCont (b : Nat) : Bool := 0x80 ≤ b ∧ b < 0xC0

/-- UTF-8 decoding of a byte list, modelling `String::from_utf8`:
rejects stray continuation bytes, overlong forms, surrogates and
out-of-range code points. -/
def utf8DecodeList : List Nat → Option (List Char)
  | [] => some []
  | b :: bs =>
    if b < 0x80 then (utf8DecodeList bs).map (Char.ofNat b :: ·)
    else if b < 0xC2 then none
    else if b < 0xE0 then
      match bs with
      | b2 :: bs2 =>
        if isCont b2 then
          (utf8DecodeList bs2).map (Char.ofNat ((b - 0xC0) * 64 + (b2 - 0x80)) :: ·)
        else none
      | _ => none
    else if b < 0xF0 then
      match bs with
      | b2 :: b3 :: bs2 =>
        let n := (b - 0xE0) * 4096 + (b2 - 0x80) * 64 + (b3 - 0x80)
        if isCont b2 ∧ isCont b3 ∧ 0x800 ≤ n ∧ ¬ (0xD800 ≤ n ∧ n < 0xE000) then
          (utf8DecodeList bs2).map (Char.ofNat n :: ·)
        else none
      | _ => none
    else if b < 0xF5 then
      match bs with
      | b2 :: b3 :: b4 :: bs2 =>
        let n := (b - 0xF0) * 262144 + (b2 - 0x80) * 4096 +
          (b3 - 0x80) * 64 + (b4 - 0x80)
        if isCont b2 ∧ isCont b3 ∧ isCont b4 ∧ 0x10000 ≤ n ∧ n < 0x110000 then
          (utf8DecodeList bs2).map (Char.ofNat n :: ·)
        else none
      | _ => none
    else none

/-- UTF-8 decoding of a byte list into a string. -/
def utf8Decode (bytes : List Nat) : Option String :=
  (utf8DecodeList bytes).map String.mk

/-- Decidable equality for `Except`, used to evaluate concrete decode
results. -/
instance {ε α : Type} [DecidableEq ε] [DecidableEq α] : DecidableEq (Except ε α)
  | .error e, .error f => decidable_of_iff (e = f) (by simp)
  | .error _, .ok _ => isFalse (by simp)
  | .ok _, .error _ => isFalse (by simp)
  | .ok a, .ok b => decidable_of_iff (a = b) (by simp)

/-! Embedding of `src/err.rs`. -/

/-- Error type of the crate, from `err.rs`. -/
inductive JWTError where
  | ParseError (detail : String) : JWTError
  | SchemaError : JWTError
  | NotImplementedError : JWTError
deriving DecidableEq

/-- The `fmt::Display` implementation for `JWTError` in `err.rs`. -/
def JWTError.display : JWTError → String
  | .ParseError e => "Invalid JSON, parsing failed with:\n" ++ e
  | .SchemaError => "Schema error!"
  | .NotImplementedError => "Not implemented."

/-! Embedding of `src/claims.rs`. -/

/-- Detail string standing in for a serde_json error message. The crate
formats the underlying error with `format!` into `ParseError`; the message
text itself is opaque to every operation of the crate. -/
def jsonErrMsg : String := "JSON parse error"

/-- Detail string standing in for the url crate's error message. -/
def urlErrMsg : String := "URL parse error"

/-- Detail string standing in for the base64 crate's error message. -/
def b64ErrMsg : String := "base64 decode error"

/-- Detail string standing in for the `String::from_utf8` error message. -/
def utf8ErrMsg : String := "invalid utf-8"

/-- Valid first character of a URI scheme. -/
def isSchemeStart (c : Char) : Bool := c.isAlpha

/-- Valid non-first character of a URI scheme. -/
def isSchemeChar (c : Char) : Bool :=
  c.isAlpha ∨ c.isDigit ∨ c = '+' ∨ c = '-' ∨ c = '.'

/-- Character that the URL parser model passes through unchanged. -/
def isPlainUriChar (c : Char) : Bool :=
  33 ≤ c.toNat ∧ c.toNat ≤ 126 ∧ c ≠ '"' ∧ c ≠ '<' ∧ c ≠ '>' ∧
    c ≠ '\\' ∧ c ≠ '^' ∧ c ≠ '\x7b' ∧ c ≠ '\x7d' ∧ c ≠ '`'

/-- Model of the collaborating URI parser (the external `url` crate):
`Url::parse` composed with `Url::as_str`. Simplified model: the text before
the first colon must be a syntactically valid scheme (letter first, then
letters, digits, `+`, `-`, `.`), which is lowercased; the remainder is kept
verbatim when it consists of characters the crate passes through unchanged,
and rejected otherwise (the crate's percent-encoding and host
canonicalization are outside this model). -/
def urlParse (s : String) : Option String :=
  match s.data.takeWhile (fun c => c ≠ ':'), s.data.dropWhile (fun c => c ≠ ':') with
  | scheme, ':' :: rest =>
    match scheme with
    | [] => none
    | c0 :: cRest =>
      if isSchemeStart c0 ∧ cRest.all isSchemeChar ∧ rest.all isPlainUriChar then
        some (String.mk ((c0 :: cRest).map Char.toLower ++ ':' :: rest))
      else none
  | _, _ => none

/-- Abbreviation for the string type, needed inside the `StringOrURI`
namespace where the constructor of the same name shadows it. -/
abbrev Str := String

/-- The `StringOrURI` claim-name form, from `claims.rs`. -/
inductive StringOrURI where
  | String (value : String) : StringOrURI
  | URI (value : String) : StringOrURI
deriving DecidableEq

/-- Constructs a new empty string type `StringOrURI` (`new_string`). -/
def StringOrURI.new_string : StringOrURI := .String ""

/-- Parses a string into a `StringOrURI`: text containing a colon must parse
as a URI (and is stored in the URI parser's canonical form), any other text
is a plain `String` name. The colon test `inp.contains(":")` is modelled on
the character list of the string. -/
def StringOrURI.parse (inp : Str) : Except JWTError StringOrURI :=
  if inp.data.contains ':' then
    match urlParse inp with
    | some canon => .ok (.URI canon)
    | none => .error (.ParseError urlErrMsg)
  else .ok (.String inp)

/-- Converts the `StringOrURI` to its stored text (`as_str`). -/
def StringOrURI.as_str : StringOrURI → Str
  | .String value => value
  | .URI value => value

/-- Claim classification, from `claims.rs`. -/
inductive ClaimType where
  | Registered : ClaimType
  | Public : ClaimType
  | Private : ClaimType
deriving DecidableEq

/-- The fixed registered-claim name list `REGISTERED_CLAIMS`. -/
def REGISTERED_CLAIMS : List String :=
  ["iss", "sub", "aud", "exp", "nbf", "iat", "jti"]

/-- A single claim: classification, name and JSON value. -/
structure Claim where
  claim_type : ClaimType
  claim_name : StringOrURI
  claim_value : Json
deriving DecidableEq

/-- Constructs a new (empty) private claim (`Claim::new`). -/
def Claim.new : Claim :=
  { claim_type := .Private, claim_name := .new_string, claim_value := .obj [] }

/-- Classification of a claim name (`Claim::get_claim_type`): URIs are
public, registered plain names are registered, all other plain names are
private. -/
def Claim.get_claim_type : StringOrURI → ClaimType
  | .URI _ => .Public
  | .String s => if REGISTERED_CLAIMS.contains s then .Registered else .Private

/-- Constructs a claim from a name text and a JSON value (`Claim::parse`),
propagating a name parse failure. -/
def Claim.parse (claim_name : String) (claim_value : Json) :
    Except JWTError Claim :=
  match StringOrURI.parse claim_name with
  | .error e => .error e
  | .ok name =>
    .ok { claim_type := Claim.get_claim_type name, claim_name := name,
          claim_value := claim_value }

/-- Renders the claim as `{"<name>":<value>}` (`Claim::encode_str`); the
name text is embedded verbatim, with no JSON escaping. -/
def Claim.encode_str (c : Claim) : String :=
  "\x7b\"" ++ c.claim_name.as_str ++ "\":" ++ Json.serialize c.claim_value ++ "\x7d"

/-- A set of uniquely named claims, the JWT payload. The Rust `HashMap` is
modelled by an association list in insertion order (a deterministic
refinement of the map's unspecified iteration order). -/
structure ClaimSet where
  claims : List (String × Claim)
deriving DecidableEq

/-- Creates an empty `ClaimSet` (`ClaimSet::new`). -/
def ClaimSet.new : ClaimSet := { claims := [] }

/-- Inserts a claim under its name text (`ClaimSet::insert`); fails with
`SchemaError`, leaving the set unchanged, when the name is already bound.
The pair returned models the Rust `Result<()>` plus the receiver's state
after the call. -/
def ClaimSet.insert (cs : ClaimSet) (claim : Claim) :
    Except JWTError Unit × ClaimSet :=
  if cs.claims.any (fun p => p.1 == claim.claim_name.as_str) then
    (.error .SchemaError, cs)
  else (.ok (), { claims := cs.claims ++ [(claim.claim_name.as_str, claim)] })

/-- Returns the claim bound to a name, or `SchemaError` (`ClaimSet::get`). -/
def ClaimSet.get (cs : ClaimSet) (claim_name : String) : Except JWTError Claim :=
  match cs.claims.lookup claim_name with
  | some c => .ok c
  | none => .error .SchemaError

/-- The claim-construction loop of `ClaimSet::decode_str`: for each map
entry in order, parse a claim and insert it, aborting on the first
failure. -/
def claimsFromMap : List (String × Json) → ClaimSet → Except JWTError ClaimSet
  | [], acc => .ok acc
  | (k, v) :: rest, acc =>
    match Claim.parse k v with
    | .error e => .error e
    | .ok c =>
      match ClaimSet.insert acc c with
      | (.error e, _) => .error e
      | (.ok _, acc2) => claimsFromMap rest acc2

/-- Constructs a `ClaimSet` from a JSON text (`ClaimSet::decode_str`):
parse as a JSON object into a `serde_json::Map` (key-sorted, duplicate keys
last-wins, values in `Value` shape), then parse and insert each entry. -/
def ClaimSet.decode_str (claim_set : String) : Except JWTError ClaimSet :=
  match jsonParse claim_set with
  | none => .error (.ParseError jsonErrMsg)
  | some (.obj ms) =>
      claimsFromMap (normObj (Json.normalizeMems ms)) ClaimSet.new
  | some _ => .error (.ParseError jsonErrMsg)

/-- The joined member fragments of `ClaimSet::encode_str`: each claim's
fragment with its enclosing braces stripped, joined by commas (modelling
the push/pop/join loop of the source). -/
def claimFragmentsJoin : List (String × Claim) → String
  | [] => ""
  | [p] => String.mk ((p.2.encode_str.data.drop 1).dropLast)
  | p :: q :: rest =>
      String.mk ((p.2.encode_str.data.drop 1).dropLast) ++ "," ++
        claimFragmentsJoin (q :: rest)

/-- Renders the `ClaimSet` as a JSON object text (`ClaimSet::encode_str`):
`{}` when empty, otherwise the brace-stripped claim fragments joined by
commas inside one pair of braces. -/
def ClaimSet.encode_str (cs : ClaimSet) : String :=
  if cs.claims.length = 0 then "\x7b\x7d"
  else "\x7b" ++ claimFragmentsJoin cs.claims ++ "\x7d"

/-- Base64 form of the claim set (`ClaimSet::encode_b64`). -/
def ClaimSet.encode_b64 (cs : ClaimSet) : String :=
  base64Encode (utf8Encode cs.encode_str)

/-- Base64 decoding of a claim set (`ClaimSet::decode_b64`): base64, then
UTF-8, then `decode_str`, each failure reported as `ParseError`. -/
def ClaimSet.decode_b64 (input : String) : Except JWTError ClaimSet :=
  match base64Decode input with
  | none => .error (.ParseError b64ErrMsg)
  | some bytes =>
    match utf8Decode bytes with
    | none => .error (.ParseError utf8ErrMsg)
    | some s => ClaimSet.decode_str s

/-! Embedding of `src/header.rs`. -/

/-- The `typ` header field. -/
inductive Typ where
  | None : Typ
  | JWT : Typ
deriving DecidableEq

/-- The `alg` header field; only the unsecured algorithm exists. -/
inductive Alg where
  | None : Alg
deriving DecidableEq

/-- The `cty` header field. -/
inductive Cty where
  | None : Cty
  | JWT : Cty
deriving DecidableEq

/-- The JOSE header record, from `header.rs`. -/
structure JWTHeader where
  typ : Typ
  cty : Cty
  alg : Alg
deriving DecidableEq

/-- Plaintext header encoding (`JWTHeader::encode_str`): the fixed text
built by the source as `String::from("{\"alg\": ") + "\"none\"" + "}"`. -/
def JWTHeader.encode_str (_ : JWTHeader) : String :=
  "\x7b\"alg\": " ++ "\"none\"" ++ "\x7d"

/-- Base64 header encoding (`JWTHeader::encode_b64`). -/
def JWTHeader.encode_b64 (h : JWTHeader) : String :=
  base64Encode (utf8Encode h.encode_str)

/-- The `header["alg"]` indexing step of `JWTHeader::decode_str`:
serde_json `Value` indexing returns the member of an object or `Null`. -/
def algIndex : Json → Json
  | .obj ms =>
    match ms.lookup "alg" with
    | some v => v
    | none => .null
  | _ => .null

/-- Plaintext header decoding (`JWTHeader::decode_str`). The outer `none`
models a panic: the source calls `alg.as_str().unwrap()`, which aborts the
process when `alg` is present but not a string. -/
def JWTHeader.decode_str (input : String) : Option (Except JWTError JWTHeader) :=
  match jsonParse input with
  | none => some (.error (.ParseError jsonErrMsg))
  | some j =>
    match algIndex (Json.normalize j) with
    | .null => some (.error .SchemaError)
    | .str a =>
      if a = "none" then
        some (.ok { alg := .None, cty := .None, typ := .None })
      else some (.error .NotImplementedError)
    | _ => none

/-- Base64 header decoding (`JWTHeader::decode_b64`): base64, then UTF-8,
then `decode_str`, propagating the first failure. -/
def JWTHeader.decode_b64 (input : String) : Option (Except JWTError JWTHeader) :=
  match base64Decode input with
  | none => some (.error (.ParseError b64ErrMsg))
  | some bytes =>
    match utf8Decode bytes with
    | none => some (.error (.ParseError utf8ErrMsg))
    | some s => JWTHeader.decode_str s

/-! Embedding of `src/lib.rs`. -/

/-- A JSON Web Token: header and claim set. The struct has no field for a
signature. -/
structure JWT where
  header : JWTHeader
  claim_set : ClaimSet
deriving DecidableEq

/-- Constructor (`JWT::new`): an empty unsecured token. -/
def JWT.new : JWT :=
  { header := { typ := .None, alg := .None, cty := .None },
    claim_set := ClaimSet.new }

/-- Builds an unsecured token from a bare claim-set JSON text
(`JWT::from_plain_str`); a decode failure is re-wrapped by `map_err` into a
`ParseError` carrying the `Display` rendering of the original error. -/
def JWT.from_plain_str (claims_set : String) : Except JWTError JWT :=
  match ClaimSet.decode_str claims_set with
  | .ok cs =>
      .ok { header := { typ := .None, alg := .None, cty := .None },
            claim_set := cs }
  | .error e => .error (.ParseError e.display)

/-- Plaintext token encoding (`JWT::encode_str`). -/
def JWT.encode_str (jwt : JWT) : String :=
  jwt.header.encode_str ++ "\n.\n" ++ jwt.claim_set.encode_str ++ "\n.\n"

/-- Base64 token encoding (`JWT::encode_b64`). -/
def JWT.encode_b64 (jwt : JWT) : String :=
  jwt.header.encode_b64 ++ "\n.\n" ++
    base64Encode (utf8Encode jwt.claim_set.encode_str) ++ "\n.\n"

/-- Split a character list on `.`, modelling Rust `str::split('.')`. -/
def splitDot : List Char → List (List Char)
  | [] => [[]]
  | c :: cs =>
    if c = '.' then [] :: splitDot cs
    else
      match splitDot cs with
      | s :: ss => (c :: s) :: ss
      | [] => [[c]]

/-- Keep characters other than space, line feed and carriage return (the
filter closure of `JWT::decode_b64`). -/
def keepNonWs (c : Char) : Bool :=
  c ≠ ' ' ∧ c ≠ Char.ofNat 10 ∧ c ≠ Char.ofNat 13

/-- The dot-separated segments of a token input, each stripped of space,
line-feed and carriage-return characters. -/
def jwtSegments (input : String) : List String :=
  (splitDot input.data).map (fun l => String.mk (l.filter keepNonWs))

/-- Base64 token decoding (`JWT::decode_b64`): 3-segment gate, header from
segment 0, claims from segment 1 via `from_plain_str`, segment 2 unused.
The outer `none` models a panic inside header decoding. -/
def JWT.decode_b64 (input : String) : Option (Except JWTError JWT) :=
  if (jwtSegments input).length ≠ 3 then some (.error .SchemaError)
  else
    match JWTHeader.decode_b64 ((jwtSegments input).getD 0 "") with
    | none => none
    | some (.error e) => some (.error e)
    | some (.ok header) =>
      match base64Decode ((jwtSegments input).getD 1 "") with
      | none => some (.error (.ParseError b64ErrMsg))
      | some bytes =>
        match utf8Decode bytes with
        | none => some (.error (.ParseError utf8ErrMsg))
        | some s =>
          match JWT.from_plain_str s with
          | .error e => some (.error e)
          | .ok jwt => some (.ok { jwt with header := header })

/-- Plaintext token decoding (`JWT::decode_str`): the source is an
unimplemented stub marked `TODO` that returns `Ok(JWT::new())` for every
input. -/
def JWT.decode_str (_ : String) : Except JWTError JWT := .ok JWT.new

/-! Lemmas about decimal digit rendering. -/

theorem decChar_toNat {d : Nat} (h : d < 10) : (decChar d).toNat = 48 + d := by
  interval_cases d <;> rfl

theorem natDecCharsAux_eq : ∀ (f n : Nat) (acc : List Char), n ≤ f →
    natDecCharsAux f n acc = ((Nat.digits 10 n).reverse).map decChar ++ acc := by
  intro f
  induction f with
  | zero =>
    intro n acc h
    interval_cases n
    simp [natDecCharsAux]
  | succ f ih =>
    intro n acc h
    by_cases h0 : n = 0
    · subst h0; simp [natDecCharsAux]
    · rw [natDecCharsAux, if_neg h0, ih (n / 10) _ (by omega),
        Nat.digits_def' (b := 10) (by norm_num) (Nat.pos_of_ne_zero h0)]
      simp [List.append_assoc]

theorem natDecChars_eq {n : Nat} (h : n ≠ 0) :
    natDecChars n = ((Nat.digits 10 n).reverse).map decChar := by
  unfold natDecChars
  rw [if_neg h, natDecCharsAux_eq n n [] le_rfl, List.append_nil]

theorem natDecChars_all_digits {n : Nat} :
    ∀ c ∈ natDecChars n, isDigitChar c = true := by
  by_cases h : n = 0
  · subst h
    intro c hc
    have he : natDecChars 0 = [decChar 0] := rfl
    rw [he, List.mem_singleton] at hc
    subst hc
    decide
  · rw [natDecChars_eq h]
    intro c hc
    simp only [List.mem_map, List.mem_reverse] at hc
    obtain ⟨d, hd, rfl⟩ := hc
    have hlt : d < 10 := Nat.digits_lt_base (by norm_num) hd
    simp [isDigitChar, decChar_toNat hlt]
    omega

theorem foldl_dec_map : ∀ (L : List Nat), (∀ d ∈ L, d < 10) → ∀ (a : Nat),
    List.foldl (fun acc c => 10 * acc + (c.toNat - 48)) a (L.map decChar) =
      List.foldl (fun acc d => 10 * acc + d) a L := by
  intro L
  induction L with
  | nil => intro h a; rfl
  | cons d ds ih =>
    intro h a
    simp only [List.map_cons, List.foldl_cons]
    rw [decChar_toNat (h d (by simp))]
    have h48 : 48 + d - 48 = d := by omega
    rw [h48]
    exact ih (fun x hx => h x (by simp [hx])) _

theorem foldl_reverse_ofDigits : ∀ (M : List Nat),
    List.foldl (fun acc d => 10 * acc + d) 0 M.reverse = Nat.ofDigits 10 M := by
  intro M
  induction M with
  | nil => rfl
  | cons d ds ih =>
    rw [List.reverse_cons, List.foldl_append, ih, Nat.ofDigits_cons]
    simp
    omega

theorem digitsVal_natDecChars (n : Nat) : digitsVal (natDecChars n) = n := by
  by_cases h : n = 0
  · subst h; decide
  · rw [natDecChars_eq h]
    unfold digitsVal
    rw [foldl_dec_map _ (fun d hd =>
        Nat.digits_lt_base (by norm_num) (List.mem_reverse.mp hd)) 0,
      foldl_reverse_ofDigits, Nat.ofDigits_digits]

/-! Theorems about the embedded program. -/

/-- Claim C2: inserting a claim whose name text equals a name already bound
in the claim set returns `SchemaError`, and the set's contents after the
failed insert equal its contents before. -/
theorem insert_duplicate_schema_error (cs : ClaimSet) (c : Claim)
    (h : cs.claims.any (fun p => p.1 == c.claim_name.as_str) = true) :
    cs.insert c = (Except.error JWTError.SchemaError, cs) := by
  unfold ClaimSet.insert
  simp only [h, if_true]

/-- Witness for C2 at a concrete claim set and claim. -/
theorem insert_duplicate_schema_error_witness :
    (ClaimSet.mk [("a", Claim.mk .Private (.String "a") (.num 1))]).insert
      (Claim.mk .Private (.String "a") (.num 2)) =
      (Except.error JWTError.SchemaError,
       ClaimSet.mk [("a", Claim.mk .Private (.String "a") (.num 1))]) :=
  insert_duplicate_schema_error _ _ (by decide)

/-- Claim C4: an input whose dot-separated segments (after stripping space,
carriage-return and line-feed characters) do not number exactly 3 makes
`JWT::decode_b64` return `SchemaError`, with no segment decoded. -/
theorem decode_b64_segment_gate (input : String)
    (h : (jwtSegments input).length ≠ 3) :
    JWT.decode_b64 input = some (Except.error JWTError.SchemaError) := by
  unfold JWT.decode_b64
  rw [if_pos h]

/-- Witness for C4 at a one-segment input. -/
theorem decode_b64_segment_gate_witness :
    JWT.decode_b64 "abc" = some (Except.error JWTError.SchemaError) :=
  decode_b64_segment_gate "abc" (by decide)

/-- Claim C5 (code bug): `JWT::decode_str` is an unimplemented stub. The
input \"x\" has one dot-separated segment, not three, yet decoding returns
an empty token instead of `SchemaError`, and no input is ever parsed. -/
theorem decode_str_stub_returns_empty_token :
    (jwtSegments "x").length = 1 ∧ JWT.decode_str "x" = Except.ok JWT.new := by
  exact ⟨by decide, rfl⟩

/-- Claim C6 (code bug): `JWTHeader::decode_str` calls
`alg.as_str().unwrap()`, which panics when the `alg` member is present but
not a string; on the input `{"alg": 5}` the process aborts instead of
receiving a typed error (modelled by `none`). -/
theorem header_decode_str_panics_on_nonstring_alg :
    JWTHeader.decode_str "\x7b\"alg\": 5\x7d" = none := by decide

/-- Claim C9: the base64 encoding of an empty token is exactly the fixed
string of the specification. -/
theorem empty_token_encode_b64 :
    JWT.encode_b64 JWT.new = "eyJhbGciOiAibm9uZSJ9\n.\ne30=\n.\n" := by decide

/-- Counterexample to claim C8 as stated: on the invalid claims text \"x\",
`ClaimSet::decode_str` fails with a `ParseError` whose detail is the
serde message, but `JWT::from_plain_str` returns a different error — a
`ParseError` wrapping the `Display` rendering of the original — not the
original error unchanged. -/
theorem from_plain_str_rewraps_error_cex :
    ClaimSet.decode_str "x" = Except.error (JWTError.ParseError jsonErrMsg) ∧
    JWT.from_plain_str "x" =
      Except.error (JWTError.ParseError
        ("Invalid JSON, parsing failed with:\n" ++ jsonErrMsg)) ∧
    JWTError.ParseError ("Invalid JSON, parsing failed with:\n" ++ jsonErrMsg) ≠
      JWTError.ParseError jsonErrMsg := by
  refine ⟨by decide, by decide, by decide⟩

/-- Claim C8 as amended: when claims decoding fails with error `e`,
`JWT::from_plain_str` surfaces a failure immediately, but re-wrapped: it
returns a `ParseError` whose detail is the `Display` rendering of `e`
(so the error kind `ParseError` is preserved for every error
`ClaimSet::decode_str` can produce, while the error value is not `e`). -/
theorem from_plain_str_wraps_display (s : String) (e : JWTError)
    (h : ClaimSet.decode_str s = Except.error e) :
    JWT.from_plain_str s = Except.error (JWTError.ParseError e.display) := by
  unfold JWT.from_plain_str
  rw [h]

/-- Witness for the amended C8 at the concrete input \"x\". -/
theorem from_plain_str_wraps_display_witness :
    JWT.from_plain_str "x" =
      Except.error (JWTError.ParseError
        (JWTError.display (JWTError.ParseError jsonErrMsg))) :=
  from_plain_str_wraps_display "x" (JWTError.ParseError jsonErrMsg) (by decide)

/-- Claim C3: a name without a colon parses to the Plain (String) form and
classifies as Registered exactly for the seven registered names, otherwise
Private; a name with a colon parses to the URI form (in canonical text) and
classifies as Public when the URI parser accepts it, and fails with
`ParseError` when it does not. -/
theorem name_parse_classification (s : String) :
    (s.data.contains ':' = false →
      StringOrURI.parse s = Except.ok (.String s) ∧
      Claim.get_claim_type (.String s) =
        (if REGISTERED_CLAIMS.contains s then ClaimType.Registered
         else ClaimType.Private)) ∧
    (s.data.contains ':' = true →
      (∀ u, urlParse s = some u →
        StringOrURI.parse s = Except.ok (.URI u) ∧
        Claim.get_claim_type (.URI u) = ClaimType.Public) ∧
      (urlParse s = none →
        StringOrURI.parse s = Except.error (JWTError.ParseError urlErrMsg))) := by
  refine ⟨fun h => ⟨?_, ?_⟩, fun h => ⟨fun u hu => ⟨?_, ?_⟩, fun hu => ?_⟩⟩
  · simp only [StringOrURI.parse, h, Bool.false_eq_true, if_false]
  · rfl
  · simp only [StringOrURI.parse, h, if_true, hu]
  · rfl
  · simp only [StringOrURI.parse, h, if_true, hu]

/-- Witness for C3 at one name of each branch: a registered plain name, a
private plain name, a valid URI name and an invalid URI name. -/
theorem name_parse_classification_witness :
    (StringOrURI.parse "iss" = Except.ok (.String "iss") ∧
      Claim.get_claim_type (.String "iss") = ClaimType.Registered) ∧
    (StringOrURI.parse "foo" = Except.ok (.String "foo") ∧
      Claim.get_claim_type (.String "foo") = ClaimType.Private) ∧
    (StringOrURI.parse "foo:bar" = Except.ok (.URI "foo:bar") ∧
      Claim.get_claim_type (.URI "foo:bar") = ClaimType.Public) ∧
    StringOrURI.parse "1:2" = Except.error (JWTError.ParseError urlErrMsg) := by
  have h1 := (name_parse_classification "iss").1 (by decide)
  have h2 := (name_parse_classification "foo").1 (by decide)
  have h3 := ((name_parse_classification "foo:bar").2 (by decide)).1
    "foo:bar" (by decide)
  have h4 := ((name_parse_classification "1:2").2 (by decide)).2 (by decide)
  refine ⟨⟨h1.1, ?_⟩, ⟨h2.1, ?_⟩, h3, h4⟩
  · rw [h1.2]; decide
  · rw [h2.2]; decide

/-- Claim C7 as amended: segment 2 is ignored, not retained — the token
built by `JWT::decode_b64` is a function of segments 0 and 1 alone, so two
accepted inputs agreeing on their first two stripped segments decode
identically whatever their signature segments hold. -/
theorem decode_b64_ignores_signature (i1 i2 : String)
    (h1 : (jwtSegments i1).length = 3) (h2 : (jwtSegments i2).length = 3)
    (h0 : (jwtSegments i1).getD 0 "" = (jwtSegments i2).getD 0 "")
    (hc : (jwtSegments i1).getD 1 "" = (jwtSegments i2).getD 1 "") :
    JWT.decode_b64 i1 = JWT.decode_b64 i2 := by
  unfold JWT.decode_b64
  rw [h0, hc, h1, h2]

/-- Witness for the amended C7: two concrete inputs differing only in the
signature segment decode to the same token. -/
theorem decode_b64_ignores_signature_witness :
    JWT.decode_b64 "eyJhbGciOiAibm9uZSJ9.e30=.AAA" =
      JWT.decode_b64 "eyJhbGciOiAibm9uZSJ9.e30=.BBB" :=
  decode_b64_ignores_signature _ _ (by decide) (by decide) (by decide) (by decide)

/-- Counterexample to claim C7 as stated: no extraction of the constructed
token recovers segment 2 of the input, because two accepted inputs with
different signature segments yield equal tokens. -/
theorem decode_b64_signature_not_retained :
    ¬ ∃ f : JWT → String, ∀ input t,
        JWT.decode_b64 input = some (Except.ok t) →
        f t = (jwtSegments input).getD 2 "" := by
  intro ⟨f, hf⟩
  have e1 : JWT.decode_b64 "eyJhbGciOiAibm9uZSJ9.e30=.AAA" =
      some (Except.ok JWT.new) := by decide
  have e2 : JWT.decode_b64 "eyJhbGciOiAibm9uZSJ9.e30=.BBB" =
      some (Except.ok JWT.new) := by decide
  have g1 : (jwtSegments "eyJhbGciOiAibm9uZSJ9.e30=.AAA").getD 2 "" = "AAA" := by
    decide
  have g2 : (jwtSegments "eyJhbGciOiAibm9uZSJ9.e30=.BBB").getD 2 "" = "BBB" := by
    decide
  have h1 := (hf _ _ e1).trans g1
  have h2 := (hf _ _ e2).trans g2
  exact absurd (h1.symm.trans h2) (by decide)

/-- Counterexample to claim C10 as stated: the plain name consisting of the
characters a, backslash, double-quote, b is a legal claim name (it has no
colon) containing both a double-quote and a backslash, yet its emitted
fragment is valid JSON — the backslash-quote pair happens to read as a JSON
escape. -/
theorem claim_fragment_unescaped_cex :
    ("a\\\"b".data.contains ':') = false ∧
    ("a\\\"b".data.contains '\\') = true ∧
    ("a\\\"b".data.contains '"') = true ∧
    (jsonParse (Claim.encode_str
      (Claim.mk .Private (.String "a\\\"b") (.num 1)))).isSome = true := by
  refine ⟨by decide, by decide, by decide, by decide⟩

/-- Helper for the amended C10: whatever follows it, a member list starting
with key text `a"` is rejected — the name's own quote closes the JSON key
early and the parser then finds a quote where a colon is required. -/
theorem parseValue_unescaped_quote_key (f : Nat) (rest : List Char) :
    parseValue f ('\x7b' :: '"' :: 'a' :: '"' :: '"' :: ':' :: rest) = none := by
  cases f with
  | zero => rfl
  | succ f =>
    cases f with
    | zero =>
      simp [parseValue, parseMems, skipWs, isJsonWs]
    | succ f2 =>
      simp [parseValue, parseMems, parseStringBody, skipWs, isJsonWs, escDecode]

/-- Claim C10 as amended: the claim fragment embeds the name's text verbatim
between the opening brace-quote and the quote-colon, with no JSON string
escaping applied to the name; consequently the fragment is invalid JSON for
the legal plain name a-followed-by-double-quote, whatever the claim value
(while some names containing double-quote and backslash still yield valid
JSON, see the counterexample). -/
theorem claim_fragment_verbatim_unescaped :
    (∀ c : Claim, c.encode_str =
      "\x7b\"" ++ c.claim_name.as_str ++ "\":" ++
        Json.serialize c.claim_value ++ "\x7d") ∧
    (∀ v : Json,
      jsonParse (Claim.encode_str (Claim.mk .Private (.String "a\"") v)) = none) := by
  constructor
  · intro c; rfl
  · intro v
    have hdata : (Claim.encode_str (Claim.mk .Private (.String "a\"") v)).data =
        '\x7b' :: '"' :: 'a' :: '"' :: '"' :: ':' :: (serChars v ++ ['\x7d']) := by
      simp [Claim.encode_str, StringOrURI.as_str, Json.serialize, String.data_append]
    unfold jsonParse
    rw [hdata, parseValue_unescaped_quote_key]

/-- Claim C1, counterexample to the round trip as stated: a claim set whose
single claim has the legal plain name a-followed-by-double-quote (names are
pairwise distinct) encodes to a fragment that is not valid JSON, so decoding
the encoded text fails instead of yielding a value-equal claim set. -/
theorem claim_set_roundtrip_cex :
    ((ClaimSet.mk [("a\"", Claim.mk .Private (.String "a\"") (.num 1))]).claims.map
        Prod.fst).Nodup ∧
    ClaimSet.decode_str
        (ClaimSet.encode_str
          (ClaimSet.mk [("a\"", Claim.mk .Private (.String "a\"") (.num 1))])) =
      Except.error (JWTError.ParseError jsonErrMsg) := by
  refine ⟨by decide, by decide⟩

theorem natDecChars_single {n : Nat} (h : n < 10) : natDecChars n = [decChar n] := by
  by_cases h0 : n = 0
  · subst h0; rfl
  · rw [natDecChars_eq h0,
      Nat.digits_def' (b := 10) (by norm_num) (Nat.pos_of_ne_zero h0),
      Nat.mod_eq_of_lt h, Nat.div_eq_of_lt h]
    simp

theorem natDecChars_multi {n : Nat} (h : 10 ≤ n) :
    ∃ d ds, natDecChars n = decChar d :: ds ∧ ds ≠ [] ∧ d < 10 ∧ d ≠ 0 := by
  have h0 : n ≠ 0 := by omega
  have hd10 : n / 10 ≠ 0 := by omega
  have hdig : Nat.digits 10 n = n % 10 :: Nat.digits 10 (n / 10) :=
    Nat.digits_def' (b := 10) (by norm_num) (Nat.pos_of_ne_zero h0)
  have hM : Nat.digits 10 (n / 10) ≠ [] := Nat.digits_ne_nil_iff_ne_zero.mpr hd10
  have hrevne : (Nat.digits 10 (n / 10)).reverse ≠ [] := by
    simp [List.reverse_eq_nil_iff, hM]
  obtain ⟨e, es, hes⟩ := List.exists_cons_of_ne_nil hrevne
  refine ⟨e, es.map decChar ++ [decChar (n % 10)], ?_, by simp, ?_, ?_⟩
  · rw [natDecChars_eq h0, hdig, List.reverse_cons, hes]
    simp
  · have he : e ∈ Nat.digits 10 n := by
      rw [hdig]
      have hmem : e ∈ (Nat.digits 10 (n / 10)).reverse := by rw [hes]; simp
      exact List.mem_cons_of_mem _ (List.mem_reverse.mp hmem)
    exact Nat.digits_lt_base (by norm_num) he
  · have hne : Nat.digits 10 n ≠ [] := Nat.digits_ne_nil_iff_ne_zero.mpr h0
    have hgl : (Nat.digits 10 n).getLast? = some e := by
      rw [hdig, List.getLast?_eq_head?_reverse, List.reverse_cons, hes]
      simp [List.getLast?_eq_head?_reverse]
    have hlast := Nat.getLast_digit_ne_zero 10 h0
    rw [List.getLast?_eq_getLast _ hne] at hgl
    intro he0
    have hval : (Nat.digits 10 n).getLast hne = e := Option.some_inj.mp hgl
    exact hlast (hval.trans he0)

theorem takeWhile_append_of_all {p : Char → Bool} : ∀ (l rest : List Char),
    (∀ c ∈ l, p c = true) → (∀ c cs2, rest = c :: cs2 → p c = false) →
    (l ++ rest).takeWhile p = l ∧ (l ++ rest).dropWhile p = rest := by
  intro l rest hl hr
  induction l with
  | nil =>
    simp only [List.nil_append]
    cases rest with
    | nil => simp
    | cons c cs =>
      have hc := hr c cs rfl
      simp [List.takeWhile_cons, List.dropWhile_cons, hc]
  | cons a l ih =>
    have ha := hl a (by simp)
    have ihr := ih (fun c hc => hl c (by simp [hc]))
    simp [List.takeWhile_cons, List.dropWhile_cons, ha, ihr.1, ihr.2]

theorem parseNatNum_natDecChars (n : Nat) (rest : List Char)
    (hhead : ∀ c cs2, rest = c :: cs2 → isDigitChar c = false)
    (htail : numTailOk rest = true) :
    parseNatNum (natDecChars n ++ rest) = some (n, rest) := by
  obtain ⟨htake, hdrop⟩ :=
    takeWhile_append_of_all (natDecChars n) rest natDecChars_all_digits hhead
  unfold parseNatNum
  rw [htake, hdrop]
  by_cases h10 : n < 10
  · rw [natDecChars_single h10]
    simp only [htail, if_true]
    have hv : digitsVal [decChar n] = n := by
      have hd := digitsVal_natDecChars n
      rwa [natDecChars_single h10] at hd
    rw [hv]
  · obtain ⟨d, ds, hnd, hdsne, hd10, hdne0⟩ := natDecChars_multi (n := n) (by omega)
    rw [hnd]
    cases ds with
    | nil => exact absurd rfl hdsne
    | cons d2 ds2 =>
      have hne0 : decChar d ≠ decChar 0 := by
        intro hdd
        have hcn := congrArg Char.toNat hdd
        rw [decChar_toNat hd10] at hcn
        have h48 : (decChar 0).toNat = 48 := rfl
        omega
      simp only [hne0, if_false, htail, if_true]
      have hv : digitsVal (decChar d :: d2 :: ds2) = n := by
        rw [← hnd, digitsVal_natDecChars]
      rw [hv]

theorem parseNumber_intChars (i : Int) (rest : List Char)
    (hhead : ∀ c cs2, rest = c :: cs2 → isDigitChar c = false)
    (htail : numTailOk rest = true) :
    parseNumber (intChars i ++ rest) = some (i, rest) := by
  unfold intChars
  by_cases hneg : i < 0
  · rw [if_pos hneg]
    simp only [List.cons_append]
    simp only [parseNumber, if_true]
    rw [parseNatNum_natDecChars _ _ hhead htail]
    simp only [Option.map_some']
    have hni : -(i.natAbs : Int) = i := by omega
    rw [hni]
  · rw [if_neg hneg]
    have hne : natDecChars i.toNat ≠ [] := by
      by_cases h10 : i.toNat < 10
      · rw [natDecChars_single h10]; simp
      · obtain ⟨d, ds, hnd, _⟩ := natDecChars_multi (n := i.toNat) (by omega)
        rw [hnd]; simp
    obtain ⟨c, cs, hcs⟩ := List.exists_cons_of_ne_nil hne
    rw [hcs]
    simp only [List.cons_append]
    simp only [parseNumber]
    have hdig : isDigitChar c = true := by
      apply natDecChars_all_digits (n := i.toNat); rw [hcs]; simp
    have hcne : c ≠ '-' := by
      intro hcm; rw [hcm] at hdig; exact absurd hdig (by decide)
    rw [if_neg hcne, ← List.cons_append, ← hcs,
      parseNatNum_natDecChars _ _ hhead htail]
    simp only [Option.map_some']
    have hti : (i.toNat : Int) = i := by omega
    rw [hti]

theorem hexVal_hexChar : ∀ d : Nat, d < 16 → hexVal (hexChar d) = some d := by
  intro d h
  interval_cases d <;> rfl

theorem psb_quote (f : Nat) (acc cs : List Char) :
    parseStringBody (f + 1) acc ('"' :: cs) = some (String.mk acc.reverse, cs) := by
  simp [parseStringBody]

theorem psb_esc (f : Nat) (acc : List Char) (e d : Char) (cs : List Char)
    (h : escDecode e = some d) :
    parseStringBody (f + 1) acc ('\\' :: e :: cs) =
      parseStringBody f (d :: acc) cs := by
  simp [parseStringBody, h]

theorem psb_u00 (f : Nat) (acc : List Char) (x y : Char) (cs : List Char)
    (a b : Nat) (hx : hexVal x = some a) (hy : hexVal y = some b)
    (ha : a < 16) (hb : b < 16) :
    parseStringBody (f + 1) acc ('\\' :: 'u' :: '0' :: '0' :: x :: y :: cs) =
      parseStringBody f (Char.ofNat (16 * a + b) :: acc) cs := by
  have h0 : hexVal '0' = some 0 := rfl
  have hdec : escDecode 'u' = none := rfl
  simp only [parseStringBody, hdec, reduceIte, h0, hx, hy]
  have hn : ((0 * 16 + 0) * 16 + a) * 16 + b = 16 * a + b := by omega
  have hsur : ¬ (55296 ≤ 16 * a + b ∧ 16 * a + b < 57344) := by omega
  rw [hn, if_neg hsur, if_neg (show ¬ ('\\' : Char) = '"' by decide)]

theorem psb_raw (f : Nat) (acc : List Char) (c : Char) (cs : List Char)
    (h1 : c ≠ '"') (h2 : c ≠ '\\') (h3 : ¬ c.toNat < 32) :
    parseStringBody (f + 1) acc (c :: cs) = parseStringBody f (c :: acc) cs := by
  simp [parseStringBody, h1, h2, h3]

theorem parseStringBody_escChars :
    ∀ (l : List Char) (f : Nat) (acc rest : List Char), l.length + 1 ≤ f →
    parseStringBody f acc (escChars l ++ '"' :: rest) =
      some (String.mk (acc.reverse ++ l), rest) := by
  intro l
  induction l with
  | nil =>
    intro f acc rest hf
    obtain ⟨f2, rfl⟩ : ∃ f2, f = f2 + 1 := ⟨f - 1, by omega⟩
    have he : escChars [] = [] := rfl
    rw [he, List.nil_append, psb_quote]
    simp
  | cons c l ih =>
    intro f acc rest hf
    obtain ⟨f2, rfl⟩ : ∃ f2, f = f2 + 1 := ⟨f - 1, by omega⟩
    have hf2 : l.length + 1 ≤ f2 := by
      simp only [List.length_cons] at hf
      omega
    have hesc : escChars (c :: l) ++ '"' :: rest =
        escChar c ++ (escChars l ++ '"' :: rest) := by
      simp [escChars, List.append_assoc]
    rw [hesc]
    by_cases h1 : c = '"'
    · subst h1
      rw [show escChar '"' = ['\\', '"'] from rfl]
      simp only [List.cons_append, List.nil_append]
      rw [psb_esc _ _ _ _ _ (show escDecode '"' = some '"' from rfl),
        ih _ _ _ hf2]
      simp
    · by_cases h2 : c = '\\'
      · subst h2
        rw [show escChar '\\' = ['\\', '\\'] from rfl]
        simp only [List.cons_append, List.nil_append]
        rw [psb_esc _ _ _ _ _ (show escDecode '\\' = some '\\' from rfl),
          ih _ _ _ hf2]
        simp
      · by_cases h3 : c = Char.ofNat 8
        · subst h3
          rw [show escChar (Char.ofNat 8) = ['\\', 'b'] from rfl]
          simp only [List.cons_append, List.nil_append]
          rw [psb_esc _ _ _ _ _
            (show escDecode 'b' = some (Char.ofNat 8) from rfl),
            ih _ _ _ hf2]
          simp
        · by_cases h4 : c = Char.ofNat 9
          · subst h4
            rw [show escChar (Char.ofNat 9) = ['\\', 't'] from rfl]
            simp only [List.cons_append, List.nil_append]
            rw [psb_esc _ _ _ _ _
              (show escDecode 't' = some (Char.ofNat 9) from rfl),
              ih _ _ _ hf2]
            simp
          · by_cases h5 : c = Char.ofNat 10
            · subst h5
              rw [show escChar (Char.ofNat 10) = ['\\', 'n'] from rfl]
              simp only [List.cons_append, List.nil_append]
              rw [psb_esc _ _ _ _ _
                (show escDecode 'n' = some (Char.ofNat 10) from rfl),
                ih _ _ _ hf2]
              simp
            · by_cases h6 : c = Char.ofNat 12
              · subst h6
                rw [show escChar (Char.ofNat 12) = ['\\', 'f'] from rfl]
                simp only [List.cons_append, List.nil_append]
                rw [psb_esc _ _ _ _ _
                  (show escDecode 'f' = some (Char.ofNat 12) from rfl),
                  ih _ _ _ hf2]
                simp
              · by_cases h7 : c = Char.ofNat 13
                · subst h7
                  rw [show escChar (Char.ofNat 13) = ['\\', 'r'] from rfl]
                  simp only [List.cons_append, List.nil_append]
                  rw [psb_esc _ _ _ _ _
                    (show escDecode 'r' = some (Char.ofNat 13) from rfl),
                    ih _ _ _ hf2]
                  simp
                · by_cases h8 : c.toNat < 32
                  · rw [show escChar c = ['\\', 'u', '0', '0',
                        hexChar (c.toNat / 16), hexChar (c.toNat % 16)] from by
                      simp only [escChar, if_neg h1, if_neg h2, if_neg h3,
                        if_neg h4, if_neg h5, if_neg h6, if_neg h7, if_pos h8]]
                    simp only [List.cons_append, List.nil_append]
                    rw [psb_u00 _ _ _ _ _ (c.toNat / 16) (c.toNat % 16)
                        (hexVal_hexChar _ (by omega)) (hexVal_hexChar _ (by omega))
                        (by omega) (by omega)]
                    have hc : 16 * (c.toNat / 16) + c.toNat % 16 = c.toNat := by
                      omega
                    rw [hc, Char.ofNat_toNat, ih _ _ _ hf2]
                    simp
                  · rw [show escChar c = [c] from by
                      simp only [escChar, if_neg h1, if_neg h2, if_neg h3,
                        if_neg h4, if_neg h5, if_neg h6, if_neg h7, if_neg h8]]
                    simp only [List.cons_append, List.nil_append]
                    rw [psb_raw _ _ _ _ h1 h2 h8, ih _ _ _ hf2]
                    simp

/-- Characters that may legally follow a serialized value without changing
how a number parse ends: not a digit, not a decimal point, not an exponent
marker. -/
def numDelim : List Char → Bool
  | [] => true
  | c :: _ => !(isDigitChar c) && !(c = '.') && !(c = 'e') && !(c = 'E')

mutual

/-- Fuel sufficient for `parseValue` on the serialization of a value. -/
def fuelNeed : Json → Nat
  | .null => 1
  | .bool _ => 1
  | .num _ => 1
  | .str _ => 1
  | .arr xs => 1 + fuelNeedL xs
  | .obj ms => 1 + fuelNeedM ms

/-- Fuel sufficient for `parseElems` on serialized array elements. -/
def fuelNeedL : List Json → Nat
  | [] => 1
  | x :: xs => 1 + fuelNeed x + fuelNeedL xs

/-- Fuel sufficient for `parseMems` on serialized object members. -/
def fuelNeedM : List (String × Json) → Nat
  | [] => 1
  | (_, v) :: ms => 1 + fuelNeed v + fuelNeedM ms

end

theorem skipWs_cons_of {c : Char} (l : List Char) (h : isJsonWs c = false) :
    skipWs (c :: l) = c :: l := by
  simp [skipWs, h]

theorem escChar_length_pos (c : Char) : 1 ≤ (escChar c).length := by
  simp only [escChar]
  split
  · decide
  · split
    · decide
    · split
      · decide
      · split
        · decide
        · split
          · decide
          · split
            · decide
            · split
              · decide
              · split
                · simp
                · simp

theorem escChars_length_ge : ∀ l : List Char, l.length ≤ (escChars l).length := by
  intro l
  induction l with
  | nil => decide
  | cons c l ih =>
    have he : escChars (c :: l) = escChar c ++ escChars l := by
      simp [escChars]
    rw [he, List.length_append, List.length_cons]
    have := escChar_length_pos c
    omega

theorem intChars_head (i : Int) :
    ∃ c cs, intChars i = c :: cs ∧ (c = '-' ∨ isDigitChar c = true) := by
  unfold intChars
  by_cases h : i < 0
  · rw [if_pos h]
    exact ⟨'-', _, rfl, Or.inl rfl⟩
  · rw [if_neg h]
    by_cases h10 : i.toNat < 10
    · rw [natDecChars_single h10]
      exact ⟨decChar i.toNat, [], rfl,
        Or.inr (natDecChars_all_digits _ (by rw [natDecChars_single h10]; simp))⟩
    · obtain ⟨d, ds, hnd, _, _, _⟩ := natDecChars_multi (n := i.toNat) (by omega)
      rw [hnd]
      exact ⟨decChar d, ds, rfl,
        Or.inr (natDecChars_all_digits _ (by rw [hnd]; simp))⟩

/-- Property of a character that can start a serialized value: never
whitespace and never a closing bracket, closing brace or comma. -/
def goodHead (c : Char) : Prop :=
  isJsonWs c = false ∧ c ≠ ']' ∧ c ≠ '\x7d' ∧ c ≠ ','

theorem goodHead_of_numStart {c : Char} (h : c = '-' ∨ isDigitChar c = true) :
    goodHead c := by
  rcases h with h | h
  · subst h; exact ⟨by decide, by decide, by decide, by decide⟩
  · have hn : 48 ≤ c.toNat ∧ c.toNat ≤ 57 := by
      simp only [isDigitChar, decide_eq_true_eq] at h
      omega
    refine ⟨?_, ?_, ?_, ?_⟩
    · simp only [isJsonWs]
      have hno : ¬ (c = ' ' ∨ c = Char.ofNat 9 ∨ c = Char.ofNat 10 ∨
          c = Char.ofNat 13) := by
        intro hor
        rcases hor with h1 | h1 | h1 | h1 <;> (subst h1; revert hn; decide)
      simp [hno]
    · intro h1; subst h1; revert hn; decide
    · intro h1; subst h1; revert hn; decide
    · intro h1; subst h1; revert hn; decide

theorem serChars_cons (v : Json) :
    ∃ c cs, serChars v = c :: cs ∧ goodHead c := by
  cases v with
  | null => exact ⟨'n', _, rfl, by decide, by decide, by decide, by decide⟩
  | bool b =>
    cases b with
    | true => exact ⟨'t', _, rfl, by decide, by decide, by decide, by decide⟩
    | false => exact ⟨'f', _, rfl, by decide, by decide, by decide, by decide⟩
  | num i =>
    obtain ⟨c, cs, hcs, hn⟩ := intChars_head i
    exact ⟨c, cs, by rw [serChars, hcs], goodHead_of_numStart hn⟩
  | str s => exact ⟨'"', _, rfl, by decide, by decide, by decide, by decide⟩
  | arr xs => exact ⟨'[', _, rfl, by decide, by decide, by decide, by decide⟩
  | obj ms => exact ⟨'\x7b', _, rfl, by decide, by decide, by decide, by decide⟩

/-- The round-trip property of one JSON value: parsing its serialization
followed by any delimiter-safe tail returns the value and the tail. -/
def RTprop (v : Json) : Prop :=
  ∀ (f : Nat) (rest : List Char), fuelNeed v ≤ f → numDelim rest = true →
    parseValue f (serChars v ++ rest) = some (v, rest)

theorem parseElems_ser : ∀ (xs : List Json), xs ≠ [] →
    (∀ x ∈ xs, RTprop x) → ∀ (f : Nat) (rest : List Char), fuelNeedL xs ≤ f →
    parseElems f (serElems xs ++ ']' :: rest) = some (xs, rest) := by
  intro xs
  induction xs with
  | nil => intro h; exact absurd rfl h
  | cons x xs ih =>
    intro _ hIH f rest hf
    simp only [fuelNeedL] at hf
    obtain ⟨f2, rfl⟩ : ∃ f2, f = f2 + 1 := ⟨f - 1, by omega⟩
    cases xs with
    | nil =>
      have hser : serElems [x] = serChars x := rfl
      rw [hser]
      have hv := hIH x (by simp) f2 (']' :: rest)
        (by simp only [fuelNeedL] at hf; omega) rfl
      simp only [parseElems, hv]
      rw [skipWs_cons_of _ (by decide)]
      simp
    | cons y ys =>
      have hser : serElems (x :: y :: ys) ++ ']' :: rest =
          serChars x ++ (',' :: (serElems (y :: ys) ++ ']' :: rest)) := by
        simp [serElems, List.append_assoc]
      rw [hser]
      have hv := hIH x (by simp) f2
        (',' :: (serElems (y :: ys) ++ ']' :: rest)) (by omega) rfl
      simp only [parseElems, hv]
      rw [skipWs_cons_of _ (by decide)]
      have hrec := ih (by simp) (fun z hz => hIH z (by simp [hz])) f2 rest
        (by omega)
      simp [hrec]

theorem parseMems_ser : ∀ (ms : List (String × Json)), ms ≠ [] →
    (∀ p ∈ ms, RTprop p.2) → ∀ (f : Nat) (rest : List Char), fuelNeedM ms ≤ f →
    parseMems f (serMems ms ++ '\x7d' :: rest) = some (ms, rest) := by
  intro ms
  induction ms with
  | nil => intro h; exact absurd rfl h
  | cons p ms ih =>
    obtain ⟨k, v⟩ := p
    intro _ hIH f rest hf
    simp only [fuelNeedM] at hf
    obtain ⟨f2, rfl⟩ : ∃ f2, f = f2 + 1 := ⟨f - 1, by omega⟩
    cases ms with
    | nil =>
      have hser : serMems [(k, v)] ++ '\x7d' :: rest =
          '"' :: (escChars k.data ++ '"' ::
            (':' :: (serChars v ++ '\x7d' :: rest))) := by
        simp [serMems, List.append_assoc]
      rw [hser]
      simp only [parseMems]
      rw [skipWs_cons_of _ (by decide)]
      have hlen : k.data.length + 1 ≤
          (escChars k.data ++ '"' ::
            (':' :: (serChars v ++ '\x7d' :: rest))).length + 1 := by
        have := escChars_length_ge k.data
        simp only [List.length_append, List.length_cons]
        omega
      have hstr := parseStringBody_escChars k.data _ []
        (':' :: (serChars v ++ '\x7d' :: rest)) hlen
      simp only [List.reverse_nil, List.nil_append] at hstr
      have hkk : String.mk k.data = k := rfl
      rw [hkk] at hstr
      have hsk1 : skipWs (':' :: (serChars v ++ '\x7d' :: rest)) =
          ':' :: (serChars v ++ '\x7d' :: rest) := skipWs_cons_of _ (by decide)
      have hR : RTprop v := hIH (k, v) (by simp)
      have hv := hR f2 ('\x7d' :: rest) (by omega) rfl
      have hsk2 : skipWs ('\x7d' :: rest) = '\x7d' :: rest :=
        skipWs_cons_of _ (by decide)
      simp [hstr, hsk1, hv, hsk2, -List.length_append, -List.length_cons]
    | cons q ms2 =>
      have hser : serMems ((k, v) :: q :: ms2) ++ '\x7d' :: rest =
          '"' :: (escChars k.data ++ '"' ::
            (':' :: (serChars v ++
              ',' :: (serMems (q :: ms2) ++ '\x7d' :: rest)))) := by
        simp [serMems, List.append_assoc]
      rw [hser]
      simp only [parseMems]
      rw [skipWs_cons_of _ (by decide)]
      have hlen : k.data.length + 1 ≤
          (escChars k.data ++ '"' :: (':' :: (serChars v ++
            ',' :: (serMems (q :: ms2) ++ '\x7d' :: rest)))).length + 1 := by
        have := escChars_length_ge k.data
        simp only [List.length_append, List.length_cons]
        omega
      have hstr := parseStringBody_escChars k.data _ []
        (':' :: (serChars v ++ ',' :: (serMems (q :: ms2) ++ '\x7d' :: rest)))
        hlen
      simp only [List.reverse_nil, List.nil_append] at hstr
      have hkk : String.mk k.data = k := rfl
      rw [hkk] at hstr
      have hsk1 : skipWs (':' :: (serChars v ++
          ',' :: (serMems (q :: ms2) ++ '\x7d' :: rest))) =
          ':' :: (serChars v ++
            ',' :: (serMems (q :: ms2) ++ '\x7d' :: rest)) :=
        skipWs_cons_of _ (by decide)
      have hR : RTprop v := hIH (k, v) (by simp)
      have hv := hR f2
        (',' :: (serMems (q :: ms2) ++ '\x7d' :: rest)) (by omega) rfl
      have hsk2 : skipWs (',' :: (serMems (q :: ms2) ++ '\x7d' :: rest)) =
          ',' :: (serMems (q :: ms2) ++ '\x7d' :: rest) :=
        skipWs_cons_of _ (by decide)
      have hrec := ih (by simp) (fun z hz => hIH z (by simp [hz])) f2 rest
        (by omega)
      simp [hstr, hsk1, hv, hsk2, hrec, -List.length_append, -List.length_cons]

theorem numDelim_head {rest : List Char} (h : numDelim rest = true) :
    ∀ c cs2, rest = c :: cs2 → isDigitChar c = false := by
  intro c cs2 hr
  subst hr
  simp only [numDelim, Bool.and_eq_true, Bool.not_eq_true'] at h
  exact h.1.1.1

theorem numDelim_tailOk {rest : List Char} (h : numDelim rest = true) :
    numTailOk rest = true := by
  cases rest with
  | nil => rfl
  | cons c cs =>
    simp only [numDelim, Bool.and_eq_true, Bool.not_eq_true',
      decide_eq_false_iff_not] at h
    simp only [numTailOk, decide_eq_true_eq]
    intro hor
    rcases hor with h1 | h1 | h1
    · exact absurd h1 h.1.1.2
    · exact absurd h1 h.1.2
    · exact absurd h1 h.2

theorem numStart_ne_keyword {c : Char} (h : c = '-' ∨ isDigitChar c = true) :
    c ≠ 'n' ∧ c ≠ 't' ∧ c ≠ 'f' ∧ c ≠ '"' ∧ c ≠ '[' ∧ c ≠ '\x7b' := by
  rcases h with h | h
  · subst h
    exact ⟨by decide, by decide, by decide, by decide, by decide, by decide⟩
  · have hn : 48 ≤ c.toNat ∧ c.toNat ≤ 57 := by
      simp only [isDigitChar, decide_eq_true_eq] at h
      omega
    refine ⟨?_, ?_, ?_, ?_, ?_, ?_⟩ <;>
      (intro h1; subst h1; revert hn; decide)

theorem parse_serChars : ∀ v : Json, RTprop v := by
  apply Json.inductionOn RTprop
  · intro f rest hf hrest
    obtain ⟨f2, rfl⟩ : ∃ f2, f = f2 + 1 := ⟨f - 1, by
      simp only [fuelNeed] at hf; omega⟩
    have hser : serChars .null ++ rest = 'n' :: 'u' :: 'l' :: 'l' :: rest := by
      simp [serChars]
    rw [hser]
    simp only [parseValue]
    rw [skipWs_cons_of _ (by decide)]
    simp [dropPrefix]
  · intro b f rest hf hrest
    obtain ⟨f2, rfl⟩ : ∃ f2, f = f2 + 1 := ⟨f - 1, by
      simp only [fuelNeed] at hf; omega⟩
    cases b with
    | true =>
      have hser : serChars (.bool true) ++ rest =
          't' :: 'r' :: 'u' :: 'e' :: rest := by
        simp [serChars]
      rw [hser]
      simp only [parseValue]
      rw [skipWs_cons_of _ (by decide)]
      simp [dropPrefix]
    | false =>
      have hser : serChars (.bool false) ++ rest =
          'f' :: 'a' :: 'l' :: 's' :: 'e' :: rest := by
        simp [serChars]
      rw [hser]
      simp only [parseValue]
      rw [skipWs_cons_of _ (by decide)]
      simp [dropPrefix]
  · intro n f rest hf hrest
    obtain ⟨f2, rfl⟩ : ∃ f2, f = f2 + 1 := ⟨f - 1, by
      simp only [fuelNeed] at hf; omega⟩
    obtain ⟨c, cs0, hcs, hstart⟩ := intChars_head n
    have hser : serChars (.num n) ++ rest = c :: (cs0 ++ rest) := by
      simp [serChars, hcs]
    rw [hser]
    simp only [parseValue]
    rw [skipWs_cons_of _ (goodHead_of_numStart hstart).1]
    obtain ⟨k1, k2, k3, k4, k5, k6⟩ := numStart_ne_keyword hstart
    have hnum : parseNumber (c :: (cs0 ++ rest)) = some (n, rest) := by
      rw [← List.cons_append, ← hcs,
        parseNumber_intChars n rest (numDelim_head hrest) (numDelim_tailOk hrest)]
    simp [k1, k2, k3, k4, k5, k6, hnum]
  · intro s f rest hf hrest
    obtain ⟨f2, rfl⟩ : ∃ f2, f = f2 + 1 := ⟨f - 1, by
      simp only [fuelNeed] at hf; omega⟩
    have hser : serChars (.str s) ++ rest =
        '"' :: (escChars s.data ++ '"' :: rest) := by
      simp [serChars, List.append_assoc]
    rw [hser]
    simp only [parseValue]
    rw [skipWs_cons_of _ (by decide)]
    have hlen : s.data.length + 1 ≤
        (escChars s.data ++ '"' :: rest).length + 1 := by
      have := escChars_length_ge s.data
      simp only [List.length_append, List.length_cons]
      omega
    have hstr := parseStringBody_escChars s.data _ [] rest hlen
    simp only [List.reverse_nil, List.nil_append] at hstr
    have hss : String.mk s.data = s := rfl
    rw [hss] at hstr
    simp [hstr, -List.length_append, -List.length_cons]
  · intro xs hIH f rest hf hrest
    simp only [fuelNeed] at hf
    obtain ⟨f2, rfl⟩ : ∃ f2, f = f2 + 1 := ⟨f - 1, by omega⟩
    have hser : serChars (.arr xs) ++ rest =
        '[' :: (serElems xs ++ ']' :: rest) := by
      simp [serChars, List.append_assoc]
    rw [hser]
    simp only [parseValue]
    rw [skipWs_cons_of _ (by decide)]
    cases xs with
    | nil =>
      have hE : serElems ([] : List Json) ++ ']' :: rest = ']' :: rest := by
        simp [serElems]
      rw [hE]
      have hsk : skipWs (']' :: rest) = ']' :: rest := skipWs_cons_of _ (by decide)
      simp [hsk]
    | cons x xs2 =>
      obtain ⟨c, cs0, hcs, hgood⟩ := serChars_cons x
      obtain ⟨T, hT⟩ : ∃ T, serElems (x :: xs2) ++ ']' :: rest = c :: T := by
        cases xs2 with
        | nil => exact ⟨cs0 ++ ']' :: rest, by simp [serElems, hcs]⟩
        | cons y ys =>
          exact ⟨cs0 ++ ',' :: serElems (y :: ys) ++ ']' :: rest, by
            simp [serElems, hcs, List.append_assoc]⟩
      rw [hT]
      have hsk : skipWs (c :: T) = c :: T := skipWs_cons_of _ hgood.1
      have hrec := parseElems_ser (x :: xs2) (by simp) hIH f2 rest (by omega)
      rw [hT] at hrec
      have hcne : ¬ c = ']' := hgood.2.1
      simp [hsk, hcne, hrec]
  · intro ms hIH f rest hf hrest
    simp only [fuelNeed] at hf
    obtain ⟨f2, rfl⟩ : ∃ f2, f = f2 + 1 := ⟨f - 1, by omega⟩
    have hser : serChars (.obj ms) ++ rest =
        '\x7b' :: (serMems ms ++ '\x7d' :: rest) := by
      simp [serChars, List.append_assoc]
    rw [hser]
    simp only [parseValue]
    rw [skipWs_cons_of _ (by decide)]
    cases ms with
    | nil =>
      have hE : serMems ([] : List (String × Json)) ++ '\x7d' :: rest =
          '\x7d' :: rest := by
        simp [serMems]
      rw [hE]
      have hsk : skipWs ('\x7d' :: rest) = '\x7d' :: rest :=
        skipWs_cons_of _ (by decide)
      simp [hsk]
    | cons p ms2 =>
      obtain ⟨T, hT⟩ : ∃ T, serMems (p :: ms2) ++ '\x7d' :: rest = '"' :: T := by
        obtain ⟨k, v⟩ := p
        cases ms2 with
        | nil =>
          exact ⟨escChars k.data ++ '"' :: ':' :: serChars v ++ '\x7d' :: rest,
            by simp [serMems, List.append_assoc]⟩
        | cons q ms3 =>
          exact ⟨escChars k.data ++ '"' :: ':' :: serChars v ++
              ',' :: serMems (q :: ms3) ++ '\x7d' :: rest,
            by simp [serMems, List.append_assoc]⟩
      rw [hT]
      have hsk : skipWs ('"' :: T) = '"' :: T := skipWs_cons_of _ (by decide)
      have hrec := parseMems_ser (p :: ms2) (by simp) hIH f2 rest (by omega)
      rw [hT] at hrec
      simp [hsk, hrec]

mutual

theorem fuelNeed_le : ∀ v : Json, fuelNeed v ≤ 2 * (serChars v).length + 1
  | .null => by simp [fuelNeed]
  | .bool b => by cases b <;> simp [fuelNeed]
  | .num i => by simp [fuelNeed]
  | .str s => by simp [fuelNeed]
  | .arr xs => by
    have h := fuelNeedL_le xs
    simp only [fuelNeed, serChars, List.length_cons, List.length_append]
    omega
  | .obj ms => by
    have h := fuelNeedM_le ms
    simp only [fuelNeed, serChars, List.length_cons, List.length_append]
    omega

theorem fuelNeedL_le : ∀ xs : List Json, fuelNeedL xs ≤ 2 * (serElems xs).length + 3
  | [] => by simp [fuelNeedL]
  | [x] => by
    have h := fuelNeed_le x
    simp only [fuelNeedL, serElems]
    omega
  | x :: y :: ys => by
    have h1 := fuelNeed_le x
    have h2 := fuelNeedL_le (y :: ys)
    have e1 : fuelNeedL (x :: y :: ys) = 1 + fuelNeed x + fuelNeedL (y :: ys) := by
      simp only [fuelNeedL]
    have e2 : (serElems (x :: y :: ys)).length =
        (serChars x).length + 1 + (serElems (y :: ys)).length := by
      simp only [serElems, List.length_append, List.length_cons]
      omega
    omega

theorem fuelNeedM_le :
    ∀ ms : List (String × Json), fuelNeedM ms ≤ 2 * (serMems ms).length + 3
  | [] => by simp [fuelNeedM]
  | [(k, v)] => by
    have h := fuelNeed_le v
    simp only [fuelNeedM, serMems, List.length_cons, List.length_append]
    omega
  | (k, v) :: q :: ms => by
    have h1 := fuelNeed_le v
    have h2 := fuelNeedM_le (q :: ms)
    have e1 : fuelNeedM ((k, v) :: q :: ms) =
        1 + fuelNeed v + fuelNeedM (q :: ms) := by
      simp only [fuelNeedM]
    have e2 : (serMems ((k, v) :: q :: ms)).length =
        (escChars k.data).length + 3 + (serChars v).length + 1 +
          (serMems (q :: ms)).length := by
      simp only [serMems, List.length_append, List.length_cons]
      omega
    omega

end

theorem jsonParse_serialize (v : Json) : jsonParse (Json.serialize v) = some v := by
  unfold jsonParse Json.serialize
  have hd : (String.mk (serChars v)).data = serChars v := rfl
  have hl : (String.mk (serChars v)).length = (serChars v).length := rfl
  rw [hd, hl]
  have hfuel : fuelNeed v ≤ 2 * (serChars v).length + 2 := by
    have := fuelNeed_le v
    omega
  have h := parse_serChars v (2 * (serChars v).length + 2) [] hfuel rfl
  rw [List.append_nil] at h
  rw [h]
  rfl

/-- A character that serde_json's string escaping leaves unchanged. -/
def jsonSafeChar (c : Char) : Bool := c ≠ '"' ∧ c ≠ '\\' ∧ 32 ≤ c.toNat

/-- A name whose text is emitted unchanged by JSON string escaping. -/
def jsonSafeName (s : String) : Bool := s.data.all jsonSafeChar

theorem escChars_eq_self : ∀ l : List Char, (∀ c ∈ l, jsonSafeChar c = true) →
    escChars l = l := by
  intro l h
  induction l with
  | nil => rfl
  | cons c l ih =>
    have hc := h c (by simp)
    simp only [jsonSafeChar, Bool.and_eq_true, decide_eq_true_eq] at hc
    obtain ⟨h1, h2, h3⟩ := hc
    have he : escChars (c :: l) = escChar c ++ escChars l := by
      simp [escChars]
    rw [he, ih (fun x hx => h x (by simp [hx]))]
    have hc8 : c ≠ Char.ofNat 8 := by
      intro hq; subst hq; revert h3; decide
    have hc9 : c ≠ Char.ofNat 9 := by
      intro hq; subst hq; revert h3; decide
    have hc10 : c ≠ Char.ofNat 10 := by
      intro hq; subst hq; revert h3; decide
    have hc12 : c ≠ Char.ofNat 12 := by
      intro hq; subst hq; revert h3; decide
    have hc13 : c ≠ Char.ofNat 13 := by
      intro hq; subst hq; revert h3; decide
    rw [show escChar c = [c] from by
      simp only [escChar, if_neg h1, if_neg h2, if_neg hc8, if_neg hc9,
        if_neg hc10, if_neg hc12, if_neg hc13,
        if_neg (show ¬ c.toNat < 32 by omega)]]
    rfl

theorem claim_encode_data (c : Claim) :
    (Claim.encode_str c).data =
      '\x7b' :: (('"' :: (c.claim_name.as_str.data ++
        '"' :: ':' :: serChars c.claim_value)) ++ ['\x7d']) := by
  simp only [Claim.encode_str, String.data_append, Json.serialize]
  simp [List.append_assoc]

theorem claim_strip_eq (c : Claim)
    (hsafe : jsonSafeName c.claim_name.as_str = true) :
    ((Claim.encode_str c).data.drop 1).dropLast =
      '"' :: (escChars c.claim_name.as_str.data ++
        '"' :: ':' :: serChars c.claim_value) := by
  rw [claim_encode_data, List.drop_one, List.tail_cons, List.dropLast_concat,
    escChars_eq_self _ ?hs]
  intro x hx
  simp only [jsonSafeName, List.all_eq_true] at hsafe
  exact hsafe x hx

/-- The name/value pairs of a claim set, keyed by the claims' own name
texts (as the encoder is). -/
def claimPairs (cs : ClaimSet) : List (String × Json) :=
  cs.claims.map (fun p => (p.2.claim_name.as_str, p.2.claim_value))

theorem claimFragmentsJoin_data : ∀ (l : List (String × Claim)), l ≠ [] →
    (∀ p ∈ l, jsonSafeName p.2.claim_name.as_str = true) →
    (claimFragmentsJoin l).data =
      serMems (l.map (fun p => (p.2.claim_name.as_str, p.2.claim_value))) := by
  intro l
  induction l with
  | nil => intro h; exact absurd rfl h
  | cons p l ih =>
    intro _ hsafe
    cases l with
    | nil =>
      simp only [claimFragmentsJoin, List.map_cons, List.map_nil, serMems]
      exact claim_strip_eq p.2 (hsafe p (by simp))
    | cons q l2 =>
      simp only [claimFragmentsJoin, List.map_cons, serMems,
        String.data_append]
      rw [claim_strip_eq p.2 (hsafe p (by simp))]
      have hrec := ih (by simp) (fun z hz => hsafe z (by simp [hz]))
      simp only [claimFragmentsJoin, List.map_cons] at hrec
      rw [hrec]
      simp [List.append_assoc]

theorem claimSet_encode_data (S : ClaimSet)
    (hsafe : ∀ p ∈ S.claims, jsonSafeName p.2.claim_name.as_str = true) :
    (ClaimSet.encode_str S).data = serChars (.obj (claimPairs S)) := by
  unfold ClaimSet.encode_str
  cases hcl : S.claims with
  | nil =>
    rw [if_pos (by simp [hcl])]
    simp [claimPairs, hcl, serChars, serMems]
  | cons p l =>
    rw [if_neg (by simp [hcl])]
    simp only [String.data_append]
    rw [claimFragmentsJoin_data (p :: l) (by simp)
      (fun z hz => hsafe z (by simp [hcl, hz]))]
    simp only [claimPairs, hcl, serChars]
    rfl

theorem beqt {a b : String} (h : a = b) : (a == b) = true := by simp [h]

theorem beqf {a b : String} (h : ¬ a = b) : (a == b) = false := by
  simp [h]

theorem strictSorted_iff : ∀ l : List String,
    strictSorted l = true ↔ List.Pairwise (· < ·) l
  | [] => by simp [strictSorted]
  | [a] => by simp [strictSorted]
  | a :: b :: l => by
    constructor
    · intro h
      rw [strictSorted, Bool.and_eq_true] at h
      have hp := (strictSorted_iff (b :: l)).mp h.2
      rw [List.pairwise_cons]
      refine ⟨?_, hp⟩
      intro x hx
      rcases List.mem_cons.mp hx with rfl | hx2
      · exact of_decide_eq_true h.1
      · rw [List.pairwise_cons] at hp
        exact lt_trans (of_decide_eq_true h.1) (hp.1 x hx2)
    · intro h
      rw [List.pairwise_cons] at h
      rw [strictSorted, Bool.and_eq_true]
      exact ⟨decide_eq_true (h.1 b (by simp)),
        (strictSorted_iff (b :: l)).mpr h.2⟩

theorem lookup_none_of_not_mem {β : Type} {n : String} :
    ∀ l : List (String × β), n ∉ l.map Prod.fst → List.lookup n l = none := by
  intro l
  induction l with
  | nil => intro _; rfl
  | cons p l ih =>
    intro h
    simp only [List.map_cons, List.mem_cons, not_or] at h
    rw [List.lookup_cons, beqf h.1]
    exact ih h.2

theorem mem_keys_of_lookup_isSome {β : Type} {n : String} :
    ∀ l : List (String × β), (List.lookup n l).isSome = true →
      n ∈ l.map Prod.fst := by
  intro l
  induction l with
  | nil => intro h; simp [List.lookup] at h
  | cons p l ih =>
    intro h
    rw [List.lookup_cons] at h
    by_cases he : n = p.1
    · simp only [List.map_cons, List.mem_cons]
      exact Or.inl he
    · rw [beqf he] at h
      simp only [List.map_cons, List.mem_cons]
      exact Or.inr (ih h)

theorem lookup_insertSorted (k : String) (v : Json) :
    ∀ (l : List (String × Json)) (n : String),
    List.lookup n (insertSorted k v l) =
      if n = k then some v else List.lookup n l := by
  intro l
  induction l with
  | nil =>
    intro n
    by_cases h : n = k
    · simp [insertSorted, List.lookup_cons, beqt h, h]
    · simp [insertSorted, List.lookup_cons, beqf h, h]
  | cons p l ih =>
    intro n
    obtain ⟨k2, v2⟩ := p
    simp only [insertSorted]
    by_cases h1 : k < k2
    · rw [if_pos h1]
      by_cases h : n = k
      · simp [List.lookup_cons, beqt h, h]
      · simp [List.lookup_cons, beqf h, h]
    · rw [if_neg h1]
      by_cases h2 : k = k2
      · rw [if_pos h2]
        by_cases h : n = k
        · simp [List.lookup_cons, beqt h, h]
        · subst h2
          simp [List.lookup_cons, beqf h, h]
      · rw [if_neg h2]
        by_cases h : n = k2
        · subst h
          have hnk : ¬ n = k := fun hq => h2 hq.symm
          simp [List.lookup_cons, beqt rfl, hnk]
        · simp [List.lookup_cons, beqf h, ih n]

theorem lookup_foldl_insertSorted :
    ∀ (ps : List (String × Json)) (acc : List (String × Json)) (n : String),
    List.lookup n (List.foldl (fun a p => insertSorted p.1 p.2 a) acc ps) =
      (List.lookup n ps.reverse).or (List.lookup n acc) := by
  intro ps
  induction ps with
  | nil => intro acc n; simp [List.lookup]
  | cons p ps ih =>
    intro acc n
    obtain ⟨k, v⟩ := p
    simp only [List.foldl_cons, List.reverse_cons]
    rw [ih, List.lookup_append, lookup_insertSorted]
    by_cases h : n = k
    · simp [List.lookup_cons, beqt h, h, Option.or_assoc]
    · simp [List.lookup_cons, beqf h, h, Option.or_assoc]

theorem lookup_reverse_nodup {β : Type} {n : String} :
    ∀ l : List (String × β), (l.map Prod.fst).Nodup →
    List.lookup n l.reverse = List.lookup n l := by
  intro l
  induction l with
  | nil => intro _; rfl
  | cons p l ih =>
    intro hnd
    obtain ⟨k1, v1⟩ := p
    simp only [List.map_cons, List.nodup_cons] at hnd
    rw [List.reverse_cons, List.lookup_append, List.lookup_cons]
    by_cases h : n = k1
    · subst h
      rw [lookup_none_of_not_mem l.reverse (by
        rw [List.map_reverse, List.mem_reverse]
        exact hnd.1), beqt rfl]
      simp
    · simp only [List.lookup_cons, beqf h, ih hnd.2]
      cases List.lookup n l <;> simp

theorem lookup_normObj (ps : List (String × Json))
    (h : (ps.map Prod.fst).Nodup) (n : String) :
    List.lookup n (normObj ps) = List.lookup n ps := by
  unfold normObj
  rw [lookup_foldl_insertSorted, lookup_reverse_nodup ps h]
  cases List.lookup n ps <;> simp [List.lookup]

theorem insertSorted_mem_keys (k : String) (v : Json) :
    ∀ (l : List (String × Json)) (x : String),
    x ∈ (insertSorted k v l).map Prod.fst → x = k ∨ x ∈ l.map Prod.fst := by
  intro l
  induction l with
  | nil => intro x hx; simp [insertSorted] at hx; exact Or.inl hx
  | cons p l ih =>
    intro x hx
    obtain ⟨k2, v2⟩ := p
    simp only [insertSorted] at hx
    by_cases h1 : k < k2
    · rw [if_pos h1] at hx
      simp only [List.map_cons, List.mem_cons] at hx
      rcases hx with rfl | rfl | hx2
      · exact Or.inl rfl
      · exact Or.inr (by simp)
      · exact Or.inr (by simp [hx2])
    · rw [if_neg h1] at hx
      by_cases h2 : k = k2
      · rw [if_pos h2] at hx
        simp only [List.map_cons, List.mem_cons] at hx
        rcases hx with rfl | hx2
        · exact Or.inl rfl
        · exact Or.inr (by simp [hx2])
      · rw [if_neg h2] at hx
        simp only [List.map_cons, List.mem_cons] at hx
        rcases hx with rfl | hx2
        · exact Or.inr (by simp)
        · rcases ih x hx2 with h | h
          · exact Or.inl h
          · exact Or.inr (by simp [h])

theorem insertSorted_pairwise (k : String) (v : Json) :
    ∀ l : List (String × Json),
    List.Pairwise (· < ·) (l.map Prod.fst) →
    List.Pairwise (· < ·) ((insertSorted k v l).map Prod.fst) := by
  intro l
  induction l with
  | nil => intro _; simp [insertSorted]
  | cons p l ih =>
    intro hp
    obtain ⟨k2, v2⟩ := p
    simp only [List.map_cons, List.pairwise_cons] at hp
    simp only [insertSorted]
    by_cases h1 : k < k2
    · rw [if_pos h1]
      simp only [List.map_cons, List.pairwise_cons]
      refine ⟨?_, hp.1, hp.2⟩
      intro x hx
      rcases List.mem_cons.mp hx with rfl | hx2
      · exact h1
      · exact lt_trans h1 (hp.1 x hx2)
    · rw [if_neg h1]
      by_cases h2 : k = k2
      · rw [if_pos h2]
        subst h2
        simp only [List.map_cons, List.pairwise_cons]
        exact ⟨hp.1, hp.2⟩
      · rw [if_neg h2]
        have hk2k : k2 < k := by
          rcases lt_trichotomy k k2 with hlt | heq | hlt
          · exact absurd hlt h1
          · exact absurd heq h2
          · exact hlt
        simp only [List.map_cons, List.pairwise_cons]
        constructor
        · intro x hx
          rcases insertSorted_mem_keys k v l x hx with hxk | hx2
          · rw [hxk]; exact hk2k
          · exact hp.1 x hx2
        · exact ih hp.2

theorem normObj_pairwise_aux :
    ∀ (ps acc : List (String × Json)),
    List.Pairwise (· < ·) (acc.map Prod.fst) →
    List.Pairwise (· < ·)
      ((List.foldl (fun a p => insertSorted p.1 p.2 a) acc ps).map Prod.fst) := by
  intro ps
  induction ps with
  | nil => intro acc h; exact h
  | cons p ps ih =>
    intro acc h
    simp only [List.foldl_cons]
    exact ih _ (insertSorted_pairwise p.1 p.2 acc h)

theorem normObj_pairwise (ps : List (String × Json)) :
    List.Pairwise (· < ·) ((normObj ps).map Prod.fst) :=
  normObj_pairwise_aux ps [] (by simp)

theorem normObj_keys_nodup (ps : List (String × Json)) :
    ((normObj ps).map Prod.fst).Nodup :=
  (normObj_pairwise ps).imp ne_of_lt

theorem insertSorted_append (k : String) (v : Json) :
    ∀ l : List (String × Json), (∀ x ∈ l.map Prod.fst, x < k) →
    insertSorted k v l = l ++ [(k, v)] := by
  intro l
  induction l with
  | nil => intro _; rfl
  | cons p l ih =>
    intro h
    obtain ⟨k2, v2⟩ := p
    have hk2 : k2 < k := h k2 (by simp)
    simp only [insertSorted]
    rw [if_neg (by intro hq; exact absurd (lt_trans hq hk2) (lt_irrefl k)),
      if_neg (by intro hq; rw [hq] at hk2; exact absurd hk2 (lt_irrefl k2)),
      ih (fun x hx => h x (by simp [hx]))]
    simp

theorem foldl_ins_id :
    ∀ (ps acc : List (String × Json)),
    List.Pairwise (· < ·) ((acc.map Prod.fst) ++ (ps.map Prod.fst)) →
    List.foldl (fun a p => insertSorted p.1 p.2 a) acc ps = acc ++ ps := by
  intro ps
  induction ps with
  | nil => intro acc _; simp
  | cons p ps ih =>
    intro acc h
    obtain ⟨k, v⟩ := p
    simp only [List.foldl_cons]
    have hall : ∀ x ∈ acc.map Prod.fst, x < k := by
      intro x hx
      have := (List.pairwise_append.mp h).2.2 x hx k (by simp)
      exact this
    rw [insertSorted_append k v acc hall, ih (acc ++ [(k, v)]) ?hsorted]
    · simp
    case hsorted =>
      simp only [List.map_append, List.map_cons, List.map_nil]
      rw [List.append_assoc]
      simpa using h

theorem normObj_sorted_id (ms : List (String × Json))
    (h : List.Pairwise (· < ·) (ms.map Prod.fst)) : normObj ms = ms := by
  unfold normObj
  rw [foldl_ins_id ms [] (by simpa using h)]
  simp

mutual

theorem normalize_eq_self : ∀ v : Json, Json.isNormal v = true →
    Json.normalize v = v
  | .null => fun _ => rfl
  | .bool b => fun _ => rfl
  | .num n => fun _ => rfl
  | .str s => fun _ => rfl
  | .arr xs => fun h => by
    simp only [Json.isNormal] at h
    simp only [Json.normalize, normalizeList_eq_self xs h]
  | .obj ms => fun h => by
    simp only [Json.isNormal, Bool.and_eq_true] at h
    simp only [Json.normalize, normalizeMems_eq_self ms h.2,
      normObj_sorted_id ms ((strictSorted_iff _).mp h.1)]

theorem normalizeList_eq_self : ∀ xs : List Json, Json.isNormalList xs = true →
    Json.normalizeList xs = xs
  | [] => fun _ => rfl
  | x :: xs => fun h => by
    simp only [Json.isNormalList, Bool.and_eq_true] at h
    simp only [Json.normalizeList, normalize_eq_self x h.1,
      normalizeList_eq_self xs h.2]

theorem normalizeMems_eq_self :
    ∀ ms : List (String × Json), Json.isNormalMems ms = true →
    Json.normalizeMems ms = ms
  | [] => fun _ => rfl
  | (k, v) :: ms => fun h => by
    simp only [Json.isNormalMems, Bool.and_eq_true] at h
    simp only [Json.normalizeMems, normalize_eq_self v h.1,
      normalizeMems_eq_self ms h.2]

end

theorem lookup_map_keyed {β γ : Type} (g : String → β → γ) :
    ∀ (l : List (String × β)) (n : String),
    List.lookup n (l.map (fun p => (p.1, g p.1 p.2))) =
      (List.lookup n l).map (fun b => g n b) := by
  intro l
  induction l with
  | nil => intro n; rfl
  | cons p l ih =>
    intro n
    obtain ⟨k, b⟩ := p
    simp only [List.map_cons]
    by_cases h : n = k
    · subst h
      rw [List.lookup_cons, List.lookup_cons, beqt rfl]
      simp
    · rw [List.lookup_cons, List.lookup_cons, beqf h]
      simp [ih n]

/-- The claim that `Claim::parse` constructs for a given name text and value
(junk when name parsing fails). -/
def claimOf (k : String) (v : Json) : Claim :=
  match StringOrURI.parse k with
  | .ok n =>
    { claim_type := Claim.get_claim_type n, claim_name := n, claim_value := v }
  | .error _ => Claim.new

/-- A name text whose re-parse succeeds and keeps the same text: plain
colon-free names, and URI names already in the parser's canonical form. -/
def nameStable (k : String) : Bool :=
  match StringOrURI.parse k with
  | .ok n => n.as_str == k
  | .error _ => false

theorem claimOf_spec {k : String} (v : Json) (h : nameStable k = true) :
    Claim.parse k v = .ok (claimOf k v) ∧
    (claimOf k v).claim_name.as_str = k ∧ (claimOf k v).claim_value = v := by
  unfold nameStable at h
  unfold Claim.parse claimOf
  cases hp : StringOrURI.parse k with
  | error e => rw [hp] at h; simp at h
  | ok n =>
    rw [hp] at h
    exact ⟨rfl, by simpa using h, rfl⟩

theorem any_key_eq_false {l : List (String × Claim)} {k : String}
    (h : k ∉ l.map Prod.fst) : (l.any (fun p => p.1 == k)) = false := by
  induction l with
  | nil => rfl
  | cons p l ih =>
    simp only [List.map_cons, List.mem_cons, not_or] at h
    simp only [List.any_cons, Bool.or_eq_false_iff]
    exact ⟨beqf (fun hq => h.1 hq.symm), ih h.2⟩

theorem claimsFromMap_ok :
    ∀ (entries : List (String × Json)) (acc : ClaimSet),
    (∀ p ∈ entries, nameStable p.1 = true) →
    ((acc.claims.map Prod.fst) ++ (entries.map Prod.fst)).Nodup →
    claimsFromMap entries acc =
      .ok ⟨acc.claims ++ entries.map (fun p => (p.1, claimOf p.1 p.2))⟩ := by
  intro entries
  induction entries with
  | nil => intro acc _ _; simp [claimsFromMap]
  | cons p rest ih =>
    intro acc hst hnd
    obtain ⟨k, v⟩ := p
    have hkst : nameStable k = true := hst (k, v) (by simp)
    obtain ⟨hparse, hname, hval⟩ := claimOf_spec (k := k) v hkst
    have hknotin : k ∉ acc.claims.map Prod.fst := by
      intro hmem
      exact (List.nodup_append.mp hnd).2.2 hmem (by simp)
    have hins : ClaimSet.insert acc (claimOf k v) =
        (.ok (), ⟨acc.claims ++ [(k, claimOf k v)]⟩) := by
      unfold ClaimSet.insert
      rw [hname, any_key_eq_false hknotin]
      simp
    simp only [claimsFromMap, hparse, hins]
    have hnd2 : ((acc.claims ++ [(k, claimOf k v)]).map Prod.fst ++
        rest.map Prod.fst).Nodup := by
      simp only [List.map_append, List.map_cons, List.map_nil]
      rw [List.append_assoc]
      simpa using hnd
    rw [ih ⟨acc.claims ++ [(k, claimOf k v)]⟩
      (fun z hz => hst z (by simp [hz])) hnd2]
    simp

theorem lookup_isSome_of_mem {β : Type} :
    ∀ (l : List (String × β)) (p : String × β), p ∈ l →
    (List.lookup p.1 l).isSome = true := by
  intro l
  induction l with
  | nil => intro p hp; simp at hp
  | cons q l ih =>
    intro p hp
    obtain ⟨k, b⟩ := q
    by_cases h : p.1 = k
    · rw [List.lookup_cons, beqt h]
      rfl
    · rw [List.lookup_cons, beqf h]
      rcases List.mem_cons.mp hp with rfl | hp2
      · exact absurd rfl h
      · exact ih p hp2

theorem isNormalMems_of : ∀ ms : List (String × Json),
    (∀ p ∈ ms, Json.isNormal p.2 = true) → Json.isNormalMems ms = true := by
  intro ms
  induction ms with
  | nil => intro _; rfl
  | cons p ms ih =>
    intro h
    obtain ⟨k, v⟩ := p
    simp only [Json.isNormalMems, Bool.and_eq_true]
    exact ⟨h (k, v) (by simp), ih (fun z hz => h z (by simp [hz]))⟩

/-- Claim C1 as amended: for a claim set whose stored keys are the claims'
own name texts, with pairwise-distinct names that are JSON-safe (no quote,
backslash or control character) and stable under name re-parsing, and whose
values are in serde_json `Value` shape, decoding the encoded text succeeds
and yields a claim set with the same name-to-value pairs (order-independent:
stated as equality of lookups at every name). -/
theorem claim_set_roundtrip (S : ClaimSet)
    (hkeys : ∀ p ∈ S.claims, p.1 = p.2.claim_name.as_str)
    (hnodup : (S.claims.map Prod.fst).Nodup)
    (hsafe : ∀ p ∈ S.claims, jsonSafeName p.2.claim_name.as_str = true)
    (hstable : ∀ p ∈ S.claims, nameStable p.2.claim_name.as_str = true)
    (hnormal : ∀ p ∈ S.claims, Json.isNormal p.2.claim_value = true) :
    ∃ T, ClaimSet.decode_str (ClaimSet.encode_str S) = .ok T ∧
      ∀ n, (T.claims.lookup n).map Claim.claim_value =
        (S.claims.lookup n).map Claim.claim_value := by
  have henc : ClaimSet.encode_str S = Json.serialize (.obj (claimPairs S)) :=
    String.ext (claimSet_encode_data S hsafe)
  have hcp : claimPairs S = S.claims.map (fun p => (p.1, p.2.claim_value)) := by
    unfold claimPairs
    exact List.map_congr_left (fun p hp => by rw [← hkeys p hp])
  have hcpkeys : (claimPairs S).map Prod.fst = S.claims.map Prod.fst := by
    rw [hcp, List.map_map]
    rfl
  have hnodup_pairs : ((claimPairs S).map Prod.fst).Nodup := by
    rw [hcpkeys]; exact hnodup
  have hnormMems : Json.normalizeMems (claimPairs S) = claimPairs S := by
    apply normalizeMems_eq_self
    apply isNormalMems_of
    intro p hp
    unfold claimPairs at hp
    obtain ⟨q, hq, rfl⟩ := List.mem_map.mp hp
    exact hnormal q hq
  have hlook_pairs : ∀ n, List.lookup n (claimPairs S) =
      (List.lookup n S.claims).map (fun c => c.claim_value) := by
    intro n
    rw [hcp]
    exact lookup_map_keyed (fun _ c => c.claim_value) S.claims n
  have hlook_entries : ∀ n, List.lookup n (normObj (claimPairs S)) =
      List.lookup n (claimPairs S) :=
    lookup_normObj (claimPairs S) hnodup_pairs
  have hnodup_entries : ((normObj (claimPairs S)).map Prod.fst).Nodup :=
    normObj_keys_nodup (claimPairs S)
  have hstable_entries : ∀ p ∈ normObj (claimPairs S), nameStable p.1 = true := by
    intro p hp
    have hsome : (List.lookup p.1 (normObj (claimPairs S))).isSome = true :=
      lookup_isSome_of_mem _ p hp
    rw [hlook_entries] at hsome
    have hmem := mem_keys_of_lookup_isSome _ hsome
    rw [hcpkeys] at hmem
    obtain ⟨q, hq, hq1⟩ := List.mem_map.mp hmem
    rw [← hq1, hkeys q hq]
    exact hstable q hq
  have hfm := claimsFromMap_ok (normObj (claimPairs S)) ClaimSet.new
    hstable_entries (by simpa [ClaimSet.new] using hnodup_entries)
  refine ⟨⟨(normObj (claimPairs S)).map (fun p => (p.1, claimOf p.1 p.2))⟩,
    ?_, ?_⟩
  · unfold ClaimSet.decode_str
    rw [henc, jsonParse_serialize]
    rw [show ClaimSet.new.claims = ([] : List (String × Claim)) from rfl,
      List.nil_append] at hfm
    simp [hnormMems]
    exact hfm
  · intro n
    simp only []
    rw [show List.lookup n ((normObj (claimPairs S)).map
        (fun p => (p.1, claimOf p.1 p.2))) =
        (List.lookup n (normObj (claimPairs S))).map (fun v => claimOf n v)
      from lookup_map_keyed (fun k v => claimOf k v) _ n]
    rw [hlook_entries]
    cases hlk : List.lookup n (claimPairs S) with
    | none =>
      rw [hlook_pairs] at hlk
      rw [hlk]
      rfl
    | some v =>
      have hsome : (List.lookup n (claimPairs S)).isSome = true := by
        rw [hlk]; rfl
      have hmem := mem_keys_of_lookup_isSome _ hsome
      rw [hcpkeys] at hmem
      obtain ⟨q, hq, hq1⟩ := List.mem_map.mp hmem
      have hnst : nameStable n = true := by
        rw [← hq1, hkeys q hq]
        exact hstable q hq
      have hcv : (claimOf n v).claim_value = v := (claimOf_spec v hnst).2.2
      rw [hlook_pairs] at hlk
      rw [hlk]
      simp [hcv]

theorem claim_set_roundtrip_witness :
    ∃ T, ClaimSet.decode_str (ClaimSet.encode_str
        ⟨[("b", ⟨.Private, .String "b", .num 1⟩),
          ("a", ⟨.Private, .String "a", .str "x"⟩)]⟩) = .ok T ∧
      ∀ n, (T.claims.lookup n).map Claim.claim_value =
        ((⟨[("b", ⟨.Private, .String "b", .num 1⟩),
            ("a", ⟨.Private, .String "a", .str "x"⟩)]⟩ : ClaimSet).claims.lookup
          n).map Claim.claim_value :=
  claim_set_roundtrip
    ⟨[("b", ⟨.Private, .String "b", .num 1⟩),
      ("a", ⟨.Private, .String "a", .str "x"⟩)]⟩
    (by decide) (by decide) (by decide) (by decide) (by decide)
